import Mathlib

/-
Verification of the resume-analyzer backend (src/backend/main.py).

The development shallowly embeds the request-handling logic of the FastAPI
backend: file-extension dispatch, text extraction, the Gemini response
post-processing (markdown fence stripping) and JSON parsing, and the
orchestration of POST /api/resume/analyze.

Strings are modelled as lists of characters.  The external collaborators
(PDF/DOCX reader libraries, the Gemini client) are passed in as oracle
functions, mirroring how the code treats them as black boxes.  The Python
json.loads function is modelled by an executable JSON parser over the JSON
grammar accepted by the Python json module (including the NaN/Infinity
extensions); numbers and string contents are kept as their raw lexemes,
since the backend never inspects them.  Error messages model the Python
ones without the line/column position suffixes, and the parser models
whitespace with the ASCII whitespace characters.
-/

set_option maxHeartbeats 1000000

namespace ResumeAnalyzer

abbrev Str := List Char

/-- Whitespace characters removed by the Python str.strip method
(ASCII subset of Python unicode whitespace). -/
def isPyWs (c : Char) : Bool :=
  c == ' ' || c == '\t' || c == '\n' || c == '\r' || c == '\x0b' || c == '\x0c'

/-- Whitespace characters skipped between tokens by the Python json module. -/
def isJsonWs (c : Char) : Bool :=
  c == ' ' || c == '\t' || c == '\n' || c == '\r'

/-- Model of the Python str.strip method: remove leading and trailing whitespace. -/
def pyStrip (l : Str) : Str :=
  ((l.dropWhile isPyWs).reverse.dropWhile isPyWs).reverse

/-- Model of the Python str.lower method (ASCII case folding). -/
def pyLower (l : Str) : Str := l.map Char.toLower

/-- Model of the Python str.split method with a one-character separator:
splitting a string at every occurrence of the separator, keeping empty parts. -/
def splitOnChar (sep : Char) : Str → List Str
  | [] => [[]]
  | c :: rest =>
    if c == sep then [] :: splitOnChar sep rest
    else
      match splitOnChar sep rest with
      | [] => [[c]]
      | s :: ss => (c :: s) :: ss

/-- Model of the Python str.join method. -/
def joinWith (sep : Str) : List Str → Str
  | [] => []
  | [x] => x
  | x :: y :: xs => x ++ sep ++ joinWith sep (y :: xs)

/-- JSON values as produced by the Python json.loads function.  Numbers are
kept as their source lexeme and string contents as the raw (undecoded)
character sequence between the quotes; the backend returns parsed values
without ever inspecting them, so the numeric/escape decoding is irrelevant
to every analyzed behavior. -/
inductive Json where
  | null
  | bool (b : Bool)
  | num (lexeme : Str)
  | str (raw : Str)
  | arr (elems : List Json)
  | obj (members : List (Str × Json))

/-- Failure modes of the JSON parser, mirroring the error messages of the
Python json module. -/
inductive ParseErr where
  | expectingValue
  | extraData
  | unterminatedString
  | invalidControl
  | invalidEscape
  | expectingArrDelim
  | expectingObjDelim
  | expectingColon
  | expectingPropertyName
  | tooDeep
deriving DecidableEq

/-- Message text of each parse failure (position suffixes omitted). -/
def renderErr : ParseErr → Str
  | .expectingValue => "Expecting value".toList
  | .extraData => "Extra data".toList
  | .unterminatedString => "Unterminated string starting at".toList
  | .invalidControl => "Invalid control character at".toList
  | .invalidEscape => "Invalid \\escape".toList
  | .expectingArrDelim => "Expecting \x27,\x27 delimiter".toList
  | .expectingObjDelim => "Expecting \x27,\x27 delimiter".toList
  | .expectingColon => "Expecting \x27:\x27 delimiter".toList
  | .expectingPropertyName => "Expecting property name enclosed in double quotes".toList
  | .tooDeep => "maximum recursion depth exceeded".toList

def isDigitChar (c : Char) : Bool := '0' ≤ c && c ≤ '9'

/-- Characters that can begin a JSON value accepted by the Python json
module: a string, object or array opener, the first letter of a literal
constant, a sign, or a digit. -/
def tokenStart (c : Char) : Bool :=
  c == '"' || c == '{' || c == '[' || c == 'n' || c == 't' || c == 'f' ||
  c == 'N' || c == 'I' || c == '-' || isDigitChar c

def isHexDigit (c : Char) : Bool :=
  ('0' ≤ c && c ≤ '9') || ('a' ≤ c && c ≤ 'f') || ('A' ≤ c && c ≤ 'F')

def isSimpleEscape (c : Char) : Bool :=
  c == '"' || c == '\\' || c == '/' || c == 'b' || c == 'f' || c == 'n' || c == 'r' || c == 't'

/-- Body of a JSON string literal, after the opening quote.  Returns the raw
content characters and the remaining input after the closing quote.  Escape
sequences are validated exactly as by the Python json module in strict mode
but are kept undecoded. -/
def parseStringBody : Str → Except ParseErr (Str × Str)
  | [] => .error .unterminatedString
  | c :: rest =>
    if c == '"' then .ok ([], rest)
    else if c == '\\' then
      match rest with
      | [] => .error .unterminatedString
      | e :: rest2 =>
        if e == 'u' then
          match rest2 with
          | h1 :: h2 :: h3 :: h4 :: rest3 =>
            if isHexDigit h1 && isHexDigit h2 && isHexDigit h3 && isHexDigit h4 then
              match parseStringBody rest3 with
              | .ok (s, r) => .ok (c :: e :: h1 :: h2 :: h3 :: h4 :: s, r)
              | .error err => .error err
            else .error .invalidEscape
          | _ => .error .invalidEscape
        else if isSimpleEscape e then
          match parseStringBody rest2 with
          | .ok (s, r) => .ok (c :: e :: s, r)
          | .error err => .error err
        else .error .invalidEscape
    else if c.toNat < 32 then .error .invalidControl
    else
      match parseStringBody rest with
      | .ok (s, r) => .ok (c :: s, r)
      | .error err => .error err

/-- Longest digit prefix and the remaining input. -/
def takeDigits (l : Str) : Str × Str :=
  (l.takeWhile isDigitChar, l.dropWhile isDigitChar)

/-- Integer part of a JSON number: 0, or a nonzero digit followed by digits. -/
def parseIntPart : Str → Option (Str × Str)
  | [] => none
  | c :: rest =>
    if c == '0' then some ([c], rest)
    else if isDigitChar c then
      let (d, r) := takeDigits rest
      some (c :: d, r)
    else none

/-- Optional fraction part of a JSON number: a dot followed by one or more
digits; consumed only when fully present. -/
def parseFrac : Str → Str × Str
  | '.' :: rest =>
    match takeDigits rest with
    | ([], _) => ([], '.' :: rest)
    | (d, r) => ('.' :: d, r)
  | l => ([], l)

/-- Optional exponent part of a JSON number: e or E, an optional sign, and
one or more digits; consumed only when fully present. -/
def parseExp : Str → Str × Str
  | c :: rest =>
    if c == 'e' || c == 'E' then
      match rest with
      | s :: rest2 =>
        if s == '+' || s == '-' then
          match takeDigits rest2 with
          | ([], _) => ([], c :: rest)
          | (d, r) => (c :: s :: d, r)
        else
          match takeDigits rest with
          | ([], _) => ([], c :: rest)
          | (d, r) => (c :: d, r)
      | [] => ([], [c])
    else ([], c :: rest)
  | [] => ([], [])

/-- JSON number lexeme at the head of the input, following the number
pattern of the Python json module (sign, integer part, optional fraction,
optional exponent).  Returns the matched lexeme and the remaining input. -/
def parseNumber (l : Str) : Option (Str × Str) :=
  let sign : Str := if l.headD ' ' == '-' then ['-'] else []
  let l1 : Str := if l.headD ' ' == '-' then l.tail else l
  match parseIntPart l1 with
  | none => none
  | some (ip, l2) =>
    some (sign ++ ip ++ (parseFrac l2).1 ++ (parseExp (parseFrac l2).2).1,
          (parseExp (parseFrac l2).2).2)

/-- Whitespace skipping between JSON tokens. -/
def skipWs (l : Str) : Str := l.dropWhile isJsonWs

mutual

/-- JSON value at the head of the input, mirroring the scanner of the Python
json module: strings, objects, arrays, the null/true/false literals, numbers,
and the NaN, Infinity and -Infinity constants.  The fuel argument models
the recursion limit. -/
def parseValue : Nat → Str → Except ParseErr (Json × Str)
  | 0, _ => .error .tooDeep
  | Nat.succ f, l =>
    match l with
    | [] => .error .expectingValue
    | c :: rest =>
      if c == '"' then
        match parseStringBody rest with
        | .ok (s, r) => .ok (.str s, r)
        | .error err => .error err
      else if c == '{' then
        if (skipWs rest).headD ' ' == '}' then .ok (.obj [], (skipWs rest).tail)
        else
          match parseObjLoop f (skipWs rest) with
          | .ok (kvs, r2) => .ok (.obj kvs, r2)
          | .error err => .error err
      else if c == '[' then
        if (skipWs rest).headD ' ' == ']' then .ok (.arr [], (skipWs rest).tail)
        else
          match parseArrLoop f (skipWs rest) with
          | .ok (vs, r2) => .ok (.arr vs, r2)
          | .error err => .error err
      else if "null".toList.isPrefixOf l then .ok (.null, l.drop 4)
      else if "true".toList.isPrefixOf l then .ok (.bool true, l.drop 4)
      else if "false".toList.isPrefixOf l then .ok (.bool false, l.drop 5)
      else
        match parseNumber l with
        | some (lex, r) => .ok (.num lex, r)
        | none =>
          if "NaN".toList.isPrefixOf l then .ok (.num "NaN".toList, l.drop 3)
          else if "Infinity".toList.isPrefixOf l then
            .ok (.num "Infinity".toList, l.drop 8)
          else if "-Infinity".toList.isPrefixOf l then
            .ok (.num "-Infinity".toList, l.drop 9)
          else .error .expectingValue

/-- Elements of a nonempty JSON array, positioned at the first element.
Trailing commas are rejected exactly as by the Python json module. -/
def parseArrLoop : Nat → Str → Except ParseErr (List Json × Str)
  | 0, _ => .error .tooDeep
  | Nat.succ f, l =>
    match parseValue f l with
    | .error err => .error err
    | .ok (v, r) =>
      if (skipWs r).headD ' ' == ']' then .ok ([v], (skipWs r).tail)
      else if (skipWs r).headD ' ' == ',' then
        match parseArrLoop f (skipWs (skipWs r).tail) with
        | .ok (vs, r3) => .ok (v :: vs, r3)
        | .error err => .error err
      else .error .expectingArrDelim

/-- Members of a nonempty JSON object, positioned at the first key. -/
def parseObjLoop : Nat → Str → Except ParseErr (List (Str × Json) × Str)
  | 0, _ => .error .tooDeep
  | Nat.succ f, l =>
    if l.headD ' ' == '"' then
      match parseStringBody l.tail with
      | .error err => .error err
      | .ok (k, r) =>
        if (skipWs r).headD ' ' == ':' then
          match parseValue f (skipWs (skipWs r).tail) with
          | .error err => .error err
          | .ok (v, r3) =>
            if (skipWs r3).headD ' ' == '}' then .ok ([(k, v)], (skipWs r3).tail)
            else if (skipWs r3).headD ' ' == ',' then
              match parseObjLoop f (skipWs (skipWs r3).tail) with
              | .ok (kvs, r6) => .ok ((k, v) :: kvs, r6)
              | .error err => .error err
            else .error .expectingObjDelim
        else .error .expectingColon
    else .error .expectingPropertyName

end

/-- Model of the Python json.loads function: skip leading whitespace, parse
one JSON value, and require the remainder to be whitespace only.  The fuel
bound is generous enough to never be hit on a parseable input (proved below
as part of the fuel-irrelevance lemma). -/
def loads (l : Str) : Except ParseErr Json :=
  match parseValue (2 * l.length + 2) (skipWs l) with
  | .error e => .error e
  | .ok (v, r) => if r.all isJsonWs then .ok v else .error .extraData

-- ============================================================
-- Model of the backend (src/backend/main.py)
-- ============================================================

/-- HTTP outcome of a request: a JSON success response or an HTTPException
with a status code and a detail string. -/
inductive Resp where
  | ok (status : Nat) (body : Json)
  | err (status : Nat) (detail : Str)

/-- Observable side effects of one request: whether the uploaded bytes were
read, and whether the Gemini model was invoked. -/
structure Trace where
  fileRead : Bool
  aiInvoked : Bool

/-- Python truthiness of the GEMINI_API_KEY configuration value: present and
nonempty. -/
def pyTruthyKey : Option Str → Bool
  | none => false
  | some s => !s.isEmpty

/-- Response body of GET /api/resume/health. -/
structure HealthResponse where
  status : Str
  message : Str
  gemini_configured : Bool

/-- Model of the health_check endpoint handler. -/
def health_check (geminiKey : Option Str) : HealthResponse :=
  { status := "healthy".toList
    message := "Resume Analyzer API is running!".toList
    gemini_configured := pyTruthyKey geminiKey }

/-- Extension used for format dispatch: filename.lower().split(".")[-1]. -/
def fileExtension (filename : Str) : Str :=
  (splitOnChar '.' (pyLower filename)).getLastD []

/-- Model of extract_text_from_pdf.  The PyPDF2 library is the oracle
pdfPages, returning the per-page text or the message of a reader exception;
the code concatenates the pages with newlines and strips the result. -/
def extract_text_from_pdf {β : Type} (content : β)
    (pdfPages : β → Except Str (List Str)) : Except (Nat × Str) Str :=
  match pdfPages content with
  | .error e => .error (400, "Error extracting PDF: ".toList ++ e)
  | .ok pages =>
    .ok (pyStrip (pages.foldl (fun text page => text ++ page ++ ['\n']) []))

/-- Model of extract_text_from_docx, with the python-docx library as the
oracle docxParas returning the per-paragraph text. -/
def extract_text_from_docx {β : Type} (content : β)
    (docxParas : β → Except Str (List Str)) : Except (Nat × Str) Str :=
  match docxParas content with
  | .error e => .error (400, "Error extracting DOCX: ".toList ++ e)
  | .ok paras =>
    .ok (pyStrip (paras.foldl (fun text para => text ++ para ++ ['\n']) []))

/-- Model of extract_text_from_file: dispatch on the lowercased extension
after the last dot, supporting pdf and docx only. -/
def extract_text_from_file {β : Type} (filename : Str) (content : β)
    (pdfPages docxParas : β → Except Str (List Str)) : Except (Nat × Str) Str :=
  let fe := fileExtension filename
  if fe == "pdf".toList then extract_text_from_pdf content pdfPages
  else if fe == "docx".toList then extract_text_from_docx content docxParas
  else
    .error (400, "Unsupported file format: ".toList ++ fe
      ++ ". Only PDF and DOCX are supported.".toList)

/-- Model of build_analysis_prompt: the fixed instructional template with the
resume text and the job description interpolated verbatim. -/
def build_analysis_prompt (resume_text job_description : Str) : Str :=
  "You are an expert ATS (Applicant Tracking System) analyzer and career consultant. \nAnalyze the following resume against the job description and provide a comprehensive analysis.\n\nRESUME CONTENT:\n".toList
  ++ resume_text
  ++ "\n\nJOB DESCRIPTION:\n".toList
  ++ job_description
  ++ "\n\nProvide your analysis in the following JSON format (respond ONLY with valid JSON, no markdown, no extra text):\n\n\x7b\n    \"atsScore\": <number between 0-100>,\n    \"summary\": \"<2-3 sentence summary of candidate\x27s fit for the role>\",\n    \"categoryScores\": \x7b\n        \"hardSkills\": <score 0-5>,\n        \"softSkills\": <score 0-5>,\n        \"experience\": <score 0-5>,\n        \"qualifications\": <score 0-5>\n    \x7d,\n    \"strengths\": [\n        \"<strength 1>\",\n        \"<strength 2>\",\n        \"<strength 3>\"\n    ],\n    \"weaknesses\": [\n        \"<weakness 1>\",\n        \"<weakness 2>\",\n        \"<weakness 3>\"\n    ],\n    \"recommendations\": [\n        \"<actionable recommendation 1>\",\n        \"<actionable recommendation 2>\",\n        \"<actionable recommendation 3>\"\n    ]\n\x7d\n\nANALYSIS CRITERIA:\n- ATS Score: Overall match percentage (0-100)\n- Hard Skills: Technical skills match (0-5)\n- Soft Skills: Communication, leadership, teamwork (0-5)\n- Experience: Relevant work experience (0-5)\n- Qualifications: Education and certifications (0-5)\n- Strengths: Top 3 positive highlights\n- Weaknesses: Top 3 areas for improvement\n- Recommendations: Top 3 actionable suggestions to improve the resume\n\nBe honest, constructive, and specific in your analysis.\n".toList

/-- Fence marker used to detect a markdown code block. -/
def fenceMarker : Str := "\x60\x60\x60".toList

/-- Markdown fence stripping applied to the (already stripped) response text:
when the text starts with a triple backtick, drop the first and the last
line; otherwise leave the text unchanged. -/
def cleanResponse (t : Str) : Str :=
  if fenceMarker.isPrefixOf t then
    joinWith ['\n'] (((splitOnChar '\n' t).drop 1).dropLast)
  else t

/-- Model of analyze_with_gemini.  The Gemini client is the oracle ai,
mapping the prompt to the response text or a provider error.  The response
is stripped, fence-cleaned and parsed as JSON; parse failures surface as a
500 error carrying the parser message, provider failures as a 500 error
carrying the provider message. -/
def analyze_with_gemini (resume_text job_description : Str)
    (ai : Str → Except Str Str) : Except (Nat × Str) Json :=
  match ai (build_analysis_prompt resume_text job_description) with
  | .error e => .error (500, "Error calling Gemini AI: ".toList ++ e)
  | .ok raw =>
    let response_text := cleanResponse (pyStrip raw)
    match loads response_text with
    | .error pe =>
      .error (500, "Failed to parse AI response as JSON: ".toList ++ renderErr pe)
    | .ok v => .ok v

/-- Model of the analyze_resume endpoint handler (POST /api/resume/analyze),
following the source order: configuration check, job-description check,
extension check, file read, extraction, length check, AI analysis.  The
returned trace records whether the upload was read and whether the Gemini
model was invoked.  The resumeFile-presence check of the source is omitted:
FastAPI guarantees the file parameter, making that branch unreachable. -/
def analyze_resume {β : Type} (geminiKey : Option Str) (filename : Str)
    (content : β) (jobDescription : Str)
    (pdfPages docxParas : β → Except Str (List Str))
    (ai : Str → Except Str Str) : Resp × Trace :=
  if !pyTruthyKey geminiKey then
    (.err 500 "Gemini API key not configured. Please add GEMINI_API_KEY to .env file".toList,
     ⟨false, false⟩)
  else if jobDescription.isEmpty || (pyStrip jobDescription).isEmpty then
    (.err 400 "Job description is required".toList, ⟨false, false⟩)
  else if !(["pdf".toList, "docx".toList].contains (fileExtension filename)) then
    (.err 400 "Invalid file type. Allowed: pdf, docx".toList, ⟨false, false⟩)
  else
    match extract_text_from_file filename content pdfPages docxParas with
    | .error (s, d) => (.err s d, ⟨true, false⟩)
    | .ok resume_text =>
      if resume_text.isEmpty || (pyStrip resume_text).length < 50 then
        (.err 400 "Could not extract enough text from resume. Please ensure the file is not corrupted or password-protected.".toList,
         ⟨true, false⟩)
      else
        match analyze_with_gemini resume_text jobDescription ai with
        | .error (s, d) => (.err s d, ⟨true, true⟩)
        | .ok v => (.ok 200 v, ⟨true, true⟩)

/-- Substring occurrence check (the Python in operator on strings). -/
def containsSubstring (needle hay : Str) : Bool :=
  (List.range (hay.length + 1)).any (fun i => needle.isPrefixOf (hay.drop i))

-- ============================================================
-- AnalysisResult shape (from the specification, for refinement claims)
-- ============================================================

/-- Digit string read as a natural number. -/
def digitsVal (l : Str) : Nat := l.foldl (fun a c => 10 * a + (c.toNat - 48)) 0

/-- Numeric value of a JSON number lexeme as a rational, or none when the
lexeme is not a finite number (NaN, Infinity, -Infinity). -/
def ratOfLex (lex : Str) : Option ℚ :=
  let (neg, l1) :=
    match lex with
    | '-' :: r => (true, r)
    | _ => (false, lex)
  match parseIntPart l1 with
  | none => none
  | some (ip, l2) =>
    let (fp, l3) := parseFrac l2
    let (ep, l4) := parseExp l3
    if l4.isEmpty then
      let fracDigits := fp.drop 1
      let mantissa : ℚ :=
        (digitsVal ip : ℚ) + (digitsVal fracDigits : ℚ) / ((10 : ℚ) ^ fracDigits.length)
      let expVal : Int :=
        match ep with
        | _ :: '-' :: ds => -(digitsVal ds : Int)
        | _ :: '+' :: ds => (digitsVal ds : Int)
        | _ :: ds => (digitsVal ds : Int)
        | [] => 0
      let v := mantissa * (10 : ℚ) ^ expVal
      some (if neg then -v else v)
    else none

/-- Integer value of a JSON number lexeme when the lexeme is a plain integer
literal (an optional sign followed by digits only). -/
def intOfLex (lex : Str) : Option Int :=
  match lex with
  | '-' :: ds =>
    if !ds.isEmpty && ds.all isDigitChar then some (-(digitsVal ds : Int)) else none
  | ds =>
    if !ds.isEmpty && ds.all isDigitChar then some ((digitsVal ds : Int)) else none

/-- First binding of a key in a JSON object member list. -/
def jsonLookup (kvs : List (Str × Json)) (k : Str) : Option Json :=
  match kvs.find? (fun kv => kv.1 == k) with
  | some kv => some kv.2
  | none => none

/-- Sequence-of-strings check for a JSON value. -/
def isStringSeq : Option Json → Bool
  | some (.arr xs) => xs.all (fun j => match j with | .str _ => true | _ => false)
  | _ => false

/-- Number-in-0-to-5 check for a JSON value. -/
def numIn05 : Option Json → Bool
  | some (.num lex) =>
    match ratOfLex lex with
    | some q => decide (0 ≤ q) && decide (q ≤ 5)
    | _ => false
  | _ => false

/-- Required keys of the categoryScores mapping. -/
def categoryKeys : List Str :=
  ["hardSkills".toList, "softSkills".toList, "experience".toList, "qualifications".toList]

/-- Modelled from the spec: the AnalysisResult shape invariant of section 3 —
a JSON object with atsScore an integer in 0-100, summary a string,
categoryScores a mapping with exactly the four keys hardSkills, softSkills,
experience, qualifications each a number in 0-5, and strengths, weaknesses
and recommendations sequences of strings. -/
def specAnalysisResultShape : Json → Bool
  | .obj kvs =>
    (match jsonLookup kvs "atsScore".toList with
     | some (.num lex) =>
       match intOfLex lex with
       | some n => decide (0 ≤ n) && decide (n ≤ 100)
       | none => false
     | _ => false)
    && (match jsonLookup kvs "summary".toList with
        | some (.str _) => true
        | _ => false)
    && (match jsonLookup kvs "categoryScores".toList with
        | some (.obj cs) =>
          (cs.map Prod.fst).all (fun k => categoryKeys.contains k)
          && categoryKeys.all (fun k => numIn05 (jsonLookup cs k))
        | _ => false)
    && isStringSeq (jsonLookup kvs "strengths".toList)
    && isStringSeq (jsonLookup kvs "weaknesses".toList)
    && isStringSeq (jsonLookup kvs "recommendations".toList)
  | _ => false

-- ============================================================
-- Helper lemmas: strings, strip, split and join
-- ============================================================

theorem pyStrip_nil : pyStrip [] = [] := rfl

theorem dropWhile_eq_self_of_head {p : Char → Bool} :
    ∀ l : Str, p (l.headD 'x') = false → l.dropWhile p = l := by
  intro l h
  cases l with
  | nil => rfl
  | cons c rest => simp_all [List.dropWhile_cons]

theorem pyStrip_eq_self (l : Str) (h1 : isPyWs (l.headD 'x') = false)
    (h2 : isPyWs (l.getLastD 'x') = false) : pyStrip l = l := by
  unfold pyStrip
  rw [dropWhile_eq_self_of_head l h1]
  rw [dropWhile_eq_self_of_head l.reverse, List.reverse_reverse]
  cases l with
  | nil => simpa using h1
  | cons c rest =>
    rw [List.headD_eq_head?, List.head?_reverse]
    rwa [List.getLastD_eq_getLast?] at h2

theorem splitOnChar_ne_nil (sep : Char) (l : Str) : splitOnChar sep l ≠ [] := by
  cases l with
  | nil => simp [splitOnChar]
  | cons c rest =>
    simp only [splitOnChar]
    split
    · simp
    · split <;> simp

theorem splitOnChar_append_sep (sep : Char) (x y : Str) :
    splitOnChar sep (x ++ sep :: y) = splitOnChar sep x ++ splitOnChar sep y := by
  induction x with
  | nil => simp [splitOnChar]
  | cons c x' ih =>
    by_cases hc : c == sep
    · simp only [List.cons_append, splitOnChar, hc, if_true, List.append_eq, ih]
    · simp only [List.cons_append, splitOnChar, hc, if_false, Bool.false_eq_true,
        List.append_eq, ih]
      obtain ⟨s, ss, hss⟩ := List.exists_cons_of_ne_nil (splitOnChar_ne_nil sep x')
      rw [hss]
      rfl

theorem splitOnChar_of_not_mem (sep : Char) {x : Str} (h : sep ∉ x) :
    splitOnChar sep x = [x] := by
  induction x with
  | nil => rfl
  | cons c x' ih =>
    have hc : ¬(c == sep) := by
      simp only [beq_iff_eq]
      intro he
      exact h (he ▸ List.mem_cons_self c x')
    have hx' : sep ∉ x' := fun hm => h (List.mem_cons_of_mem c hm)
    simp only [splitOnChar, hc, if_neg, Bool.false_eq_true, not_false_iff, ih hx']

theorem joinWith_splitOnChar (sep : Char) (l : Str) :
    joinWith [sep] (splitOnChar sep l) = l := by
  induction l with
  | nil => rfl
  | cons c rest ih =>
    by_cases hc : c == sep
    · have hceq : c = sep := by simpa using hc
      simp only [splitOnChar, hc, if_pos]
      obtain ⟨s, ss, hss⟩ := List.exists_cons_of_ne_nil (splitOnChar_ne_nil sep rest)
      rw [hss]
      rw [hss] at ih
      simp only [joinWith, List.nil_append, hceq]
      rw [ih]
      rfl
    · simp only [splitOnChar, hc, if_neg, Bool.false_eq_true, not_false_iff]
      obtain ⟨s, ss, hss⟩ := List.exists_cons_of_ne_nil (splitOnChar_ne_nil sep rest)
      rw [hss]
      rw [hss] at ih
      cases ss with
      | nil => simp only [joinWith] at ih ⊢; rw [ih]
      | cons t ss' =>
        simp only [joinWith, List.cons_append] at ih ⊢
        rw [ih]

theorem splitOnChar_joinWith (sep : Char) :
    ∀ ps : List Str, ps ≠ [] → (∀ p ∈ ps, sep ∉ p) →
      splitOnChar sep (joinWith [sep] ps) = ps := by
  intro ps
  induction ps with
  | nil => intro h; exact absurd rfl h
  | cons p ps' ih =>
    intro _ hmem
    cases ps' with
    | nil =>
      simp only [joinWith]
      exact splitOnChar_of_not_mem sep (hmem p (List.mem_cons_self p []))
    | cons q ps'' =>
      have : joinWith [sep] (p :: q :: ps'') = p ++ sep :: joinWith [sep] (q :: ps'') := by
        simp [joinWith]
      rw [this, splitOnChar_append_sep,
        splitOnChar_of_not_mem sep (hmem p (List.mem_cons_self p _)),
        ih (by simp) (fun r hr => hmem r (List.mem_cons_of_mem p hr))]
      rfl

theorem isPrefixOf_append_right {k l m : Str} (h : k.isPrefixOf l = true) :
    k.isPrefixOf (l ++ m) = true := by
  rw [List.isPrefixOf_iff_prefix] at h ⊢
  exact h.trans (List.prefix_append l m)

theorem isEmpty_false_of_ne_nil {l : Str} (h : l ≠ []) : l.isEmpty = false := by
  cases l with
  | nil => exact absurd rfl h
  | cons a l => rfl

theorem ne_nil_of_pyStrip_ne_nil {l : Str} (h : pyStrip l ≠ []) : l ≠ [] := by
  intro he
  rw [he] at h
  exact h rfl

theorem toLower_ne_dot {c : Char} (h : c ≠ '.') : Char.toLower c ≠ '.' := by
  show (if c.toNat ≥ 65 ∧ c.toNat ≤ 90 then Char.ofNat (c.toNat + 32) else c) ≠ '.'
  split
  · rename_i hrange
    obtain ⟨hlo, hhi⟩ := hrange
    intro habs
    obtain ⟨n, hn⟩ : ∃ n, c.toNat = n := ⟨_, rfl⟩
    rw [hn] at hlo hhi habs
    interval_cases n <;> exact absurd habs (by decide)
  · exact h

theorem dot_not_mem_pyLower {l : Str} (h : '.' ∉ l) : '.' ∉ pyLower l := by
  unfold pyLower
  intro hm
  obtain ⟨c, hc, hlow⟩ := List.mem_map.mp hm
  have : c ≠ '.' := fun he => h (he ▸ hc)
  exact toLower_ne_dot this hlow

theorem extension_allowed_of_extract_ok {β : Type} {filename : Str} {content : β}
    {pdfPages docxParas : β → Except Str (List Str)} {t : Str}
    (hex : extract_text_from_file filename content pdfPages docxParas = .ok t) :
    (["pdf".toList, "docx".toList].contains (fileExtension filename)) = true := by
  by_cases h1 : fileExtension filename = "pdf".toList
  · simp [List.contains, List.elem, h1]
  · by_cases h2 : fileExtension filename = "docx".toList
    · simp [List.contains, List.elem, h2]
    · exfalso
      have hb1 : (fileExtension filename == "pdf".toList) = false := by simpa using h1
      have hb2 : (fileExtension filename == "docx".toList) = false := by simpa using h2
      simp only [extract_text_from_file, hb1, hb2] at hex
      simp at hex

-- ============================================================
-- Claim theorems
-- ============================================================

/-- C3: when the GEMINI_API_KEY configuration value is absent (falsy) at
process start, every POST /api/resume/analyze request fails with the 500
configuration error before the upload is read or extracted (the trace shows
no file read and no AI call), and GET /api/resume/health reports
gemini_configured as false. -/
theorem C3_config_fast_fail {β : Type} (geminiKey : Option Str)
    (hkey : pyTruthyKey geminiKey = false)
    (filename : Str) (content : β) (jobDescription : Str)
    (pdfPages docxParas : β → Except Str (List Str)) (ai : Str → Except Str Str) :
    analyze_resume geminiKey filename content jobDescription pdfPages docxParas ai
      = (.err 500 "Gemini API key not configured. Please add GEMINI_API_KEY to .env file".toList,
         ⟨false, false⟩)
    ∧ (health_check geminiKey).gemini_configured = false := by
  constructor
  · simp [analyze_resume, hkey]
  · simp [health_check, hkey]

theorem C3_witness :
    pyTruthyKey none = false ∧
    (analyze_resume (β := Unit) none "resume.pdf".toList () "job".toList
        (fun _ => .ok []) (fun _ => .ok []) (fun _ => .ok [])
      = (.err 500 "Gemini API key not configured. Please add GEMINI_API_KEY to .env file".toList,
         ⟨false, false⟩)
      ∧ (health_check none).gemini_configured = false) :=
  ⟨rfl, C3_config_fast_fail none rfl "resume.pdf".toList () "job".toList
    (fun _ => .ok []) (fun _ => .ok []) (fun _ => .ok [])⟩

/-- C7: when the job description is empty or whitespace-only (its stripped
form is empty), POST /api/resume/analyze returns 400 with the detail
"Job description is required", and the trace shows that the uploaded file
was never read (and the AI never invoked).  The configuration key must be
present, otherwise the configuration check fires first with a 500. -/
theorem C7_empty_job_description {β : Type} (geminiKey : Option Str)
    (hkey : pyTruthyKey geminiKey = true)
    (jobDescription : Str) (hjd : pyStrip jobDescription = [])
    (filename : Str) (content : β)
    (pdfPages docxParas : β → Except Str (List Str)) (ai : Str → Except Str Str) :
    analyze_resume geminiKey filename content jobDescription pdfPages docxParas ai
      = (.err 400 "Job description is required".toList, ⟨false, false⟩) := by
  simp [analyze_resume, hkey, hjd]

theorem C7_witness :
    pyTruthyKey (some "key".toList) = true ∧ pyStrip "  \t ".toList = [] ∧
    analyze_resume (β := Unit) (some "key".toList) "resume.pdf".toList () "  \t ".toList
        (fun _ => .ok []) (fun _ => .ok []) (fun _ => .ok [])
      = (.err 400 "Job description is required".toList, ⟨false, false⟩) :=
  ⟨rfl, rfl, C7_empty_job_description (some "key".toList) rfl "  \t ".toList rfl
    "resume.pdf".toList () (fun _ => .ok []) (fun _ => .ok []) (fun _ => .ok [])⟩

/-- C9: whenever the (stripped) AI response begins with a triple backtick,
the post-processing removes the first and the last line unconditionally —
also when the last line is not a closing fence — so for a fenced header
followed by payload lines without a closing fence, the final payload line is
silently discarded before JSON parsing. -/
theorem C9_fence_strip_drops_last_line (hdr : Str) (ps : List Str)
    (hfence : fenceMarker.isPrefixOf hdr = true) (hn : '\n' ∉ hdr)
    (hne : ps ≠ []) (hps : ∀ p ∈ ps, '\n' ∉ p) :
    cleanResponse (hdr ++ '\n' :: joinWith ['\n'] ps)
      = joinWith ['\n'] ps.dropLast := by
  unfold cleanResponse
  rw [if_pos (isPrefixOf_append_right hfence)]
  rw [splitOnChar_append_sep, splitOnChar_of_not_mem '\n' hn,
    splitOnChar_joinWith '\n' ps hne hps]
  simp

theorem C9_witness :
    cleanResponse ("\x60\x60\x60json".toList ++ '\n'
        :: joinWith ['\n'] ["\x7b\"atsScore\": 82\x7d".toList])
      = joinWith ['\n'] (["\x7b\"atsScore\": 82\x7d".toList].dropLast) :=
  C9_fence_strip_drops_last_line "\x60\x60\x60json".toList
    ["\x7b\"atsScore\": 82\x7d".toList] (by decide) (by decide) (by decide)
    (by decide)

/-- C6 counterexample: for the filename resume.txt the analyze endpoint
rejects with detail "Invalid file type. Allowed: pdf, docx", which does not
contain the offending extension txt — refuting the claim that the error
message of the endpoint validation carries the offending extension. -/
theorem C6_counterexample :
    (analyze_resume (β := Unit) (some "key".toList) "resume.txt".toList ()
        "job".toList (fun _ => .ok []) (fun _ => .ok []) (fun _ => .ok [])).1
      = .err 400 "Invalid file type. Allowed: pdf, docx".toList
    ∧ containsSubstring "txt".toList "Invalid file type. Allowed: pdf, docx".toList
        = false :=
  ⟨rfl, by decide⟩

/-- C6 amended: for every filename whose extension (the segment after the
last dot of the lowercased filename) is not pdf or docx, the request is
rejected with a 400: extract_text_from_file fails with a message carrying
the offending extension and naming the supported formats PDF and DOCX, while
the analyze endpoint validation rejects with the fixed message naming the
supported set pdf, docx but not the offending extension. -/
theorem C6_amended {β : Type} (filename : Str)
    (h1 : fileExtension filename ≠ "pdf".toList)
    (h2 : fileExtension filename ≠ "docx".toList)
    (content : β) (pdfPages docxParas : β → Except Str (List Str))
    (geminiKey : Option Str) (hkey : pyTruthyKey geminiKey = true)
    (jobDescription : Str) (hjd : pyStrip jobDescription ≠ [])
    (ai : Str → Except Str Str) :
    extract_text_from_file filename content pdfPages docxParas
      = .error (400, "Unsupported file format: ".toList ++ fileExtension filename
          ++ ". Only PDF and DOCX are supported.".toList)
    ∧ analyze_resume geminiKey filename content jobDescription pdfPages docxParas ai
      = (.err 400 "Invalid file type. Allowed: pdf, docx".toList, ⟨false, false⟩) := by
  have hb1 : (fileExtension filename == "pdf".toList) = false := by simpa using h1
  have hb2 : (fileExtension filename == "docx".toList) = false := by simpa using h2
  have hb1e : (fileExtension filename == ['p', 'd', 'f']) = false := hb1
  have hb2e : (fileExtension filename == ['d', 'o', 'c', 'x']) = false := hb2
  have hjdne : jobDescription ≠ [] := ne_nil_of_pyStrip_ne_nil hjd
  have he1 : jobDescription.isEmpty = false := isEmpty_false_of_ne_nil hjdne
  have he2 : (pyStrip jobDescription).isEmpty = false := isEmpty_false_of_ne_nil hjd
  constructor
  · simp only [extract_text_from_file, hb1, hb2]
    simp
  · simp [analyze_resume, hkey, he1, he2, List.contains, List.elem, hb1, hb2,
      hb1e, hb2e]

theorem C6_amended_witness :
    extract_text_from_file (β := Unit) "resume.txt".toList () (fun _ => .ok [])
        (fun _ => .ok [])
      = .error (400, "Unsupported file format: ".toList ++ "txt".toList
          ++ ". Only PDF and DOCX are supported.".toList)
    ∧ analyze_resume (β := Unit) (some "key".toList) "resume.txt".toList ()
        "job".toList (fun _ => .ok []) (fun _ => .ok []) (fun _ => .ok [])
      = (.err 400 "Invalid file type. Allowed: pdf, docx".toList, ⟨false, false⟩) :=
  C6_amended "resume.txt".toList (by decide) (by decide) () (fun _ => .ok [])
    (fun _ => .ok []) (some "key".toList) rfl "job".toList (by decide)
    (fun _ => .ok [])

/-- C10: extension derivation lowercases the whole filename and takes the
segment after the last dot; a filename containing no dot yields the entire
lowercased filename as the extension, so the bare filename pdf passes the
endpoint extension check (the file is read) and extract_text_from_file
routes it to the PDF extractor. -/
theorem C10_no_dot_extension {β : Type} (filename : Str) (hnd : '.' ∉ filename)
    (content : β) (pdfPages docxParas : β → Except Str (List Str)) :
    fileExtension filename = pyLower filename
    ∧ extract_text_from_file "pdf".toList content pdfPages docxParas
        = extract_text_from_pdf content pdfPages
    ∧ (∀ (geminiKey : Option Str) (jobDescription : Str) (ai : Str → Except Str Str),
        pyTruthyKey geminiKey = true → pyStrip jobDescription ≠ [] →
        (analyze_resume geminiKey "pdf".toList content jobDescription pdfPages
            docxParas ai).2.fileRead = true) := by
  refine ⟨?_, rfl, ?_⟩
  · unfold fileExtension
    rw [splitOnChar_of_not_mem '.' (dot_not_mem_pyLower hnd)]
    rfl
  · intro geminiKey jobDescription ai hkey hjd
    have he1 : jobDescription.isEmpty = false :=
      isEmpty_false_of_ne_nil (ne_nil_of_pyStrip_ne_nil hjd)
    have he2 : (pyStrip jobDescription).isEmpty = false := isEmpty_false_of_ne_nil hjd
    have hcontains :
        (["pdf".toList, "docx".toList].contains (fileExtension "pdf".toList)) = true := by
      decide
    simp only [analyze_resume, hkey, he1, he2, hcontains, Bool.not_true, Bool.not_false,
      Bool.or_false, Bool.false_eq_true, if_false, if_true]
    split
    · rfl
    · split
      · rfl
      · split <;> rfl

theorem C10_witness :
    fileExtension "pdf".toList = pyLower "pdf".toList
    ∧ extract_text_from_file (β := Unit) "pdf".toList () (fun _ => .ok [])
        (fun _ => .ok [])
      = extract_text_from_pdf () (fun _ => .ok [])
    ∧ (∀ (geminiKey : Option Str) (jobDescription : Str) (ai : Str → Except Str Str),
        pyTruthyKey geminiKey = true → pyStrip jobDescription ≠ [] →
        (analyze_resume geminiKey "pdf".toList () jobDescription (fun _ => .ok [])
            (fun _ => .ok []) ai).2.fileRead = true) :=
  C10_no_dot_extension "pdf".toList (by decide) () (fun _ => .ok [])
    (fun _ => .ok [])

/-- C5: once a request reaches extraction (key configured, job description
nonblank) and extraction yields text t, the endpoint fails with the 400
insufficient-text error and never invokes the AI when the stripped text is
shorter than 50 characters, and proceeds to AI invocation when the stripped
text has at least 50 characters. -/
theorem C5_insufficient_text {β : Type} (geminiKey : Option Str)
    (hkey : pyTruthyKey geminiKey = true)
    (jobDescription : Str) (hjd : pyStrip jobDescription ≠ [])
    (filename : Str) (content : β)
    (pdfPages docxParas : β → Except Str (List Str)) (ai : Str → Except Str Str)
    (t : Str)
    (hex : extract_text_from_file filename content pdfPages docxParas = .ok t) :
    ((pyStrip t).length < 50 →
      analyze_resume geminiKey filename content jobDescription pdfPages docxParas ai
        = (.err 400 "Could not extract enough text from resume. Please ensure the file is not corrupted or password-protected.".toList,
           ⟨true, false⟩))
    ∧ (50 ≤ (pyStrip t).length →
      (analyze_resume geminiKey filename content jobDescription pdfPages docxParas
          ai).2.aiInvoked = true) := by
  have he1 : jobDescription.isEmpty = false :=
    isEmpty_false_of_ne_nil (ne_nil_of_pyStrip_ne_nil hjd)
  have he2 : (pyStrip jobDescription).isEmpty = false := isEmpty_false_of_ne_nil hjd
  have hall := extension_allowed_of_extract_ok hex
  constructor
  · intro hlt
    have hd : decide ((pyStrip t).length < 50) = true := decide_eq_true hlt
    simp only [analyze_resume, hkey, Bool.not_true, Bool.false_eq_true, if_false,
      he1, he2, Bool.or_self, hall, if_true, hex, hd, Bool.or_true,
      eq_self_iff_true]
  · intro hge
    have htne : t ≠ [] := by
      intro he
      rw [he, pyStrip_nil] at hge
      simp at hge
    have hte : t.isEmpty = false := isEmpty_false_of_ne_nil htne
    have hnlt : ¬(pyStrip t).length < 50 := by omega
    have hd : decide ((pyStrip t).length < 50) = false := decide_eq_false hnlt
    cases hai : analyze_with_gemini t jobDescription ai with
    | error e =>
      obtain ⟨s, d⟩ := e
      simp only [analyze_resume, hkey, Bool.not_true, Bool.false_eq_true, if_false,
        he1, he2, Bool.or_self, hall, if_true, hex, hte, hd, hai,
        eq_self_iff_true]
    | ok v =>
      simp only [analyze_resume, hkey, Bool.not_true, Bool.false_eq_true, if_false,
        he1, he2, Bool.or_self, hall, if_true, hex, hte, hd, hai,
        eq_self_iff_true]

theorem C5_witness :
    (pyStrip "Too short.".toList).length < 50 ∧
    analyze_resume (β := Unit) (some "key".toList) "resume.pdf".toList ()
        "Python backend engineer".toList (fun _ => .ok ["Too short.".toList])
        (fun _ => .ok []) (fun _ => .ok "\x7b\x7d".toList)
      = (.err 400 "Could not extract enough text from resume. Please ensure the file is not corrupted or password-protected.".toList,
         ⟨true, false⟩) :=
  ⟨by decide,
    (C5_insufficient_text (some "key".toList) rfl "Python backend engineer".toList
      (by decide) "resume.pdf".toList () (fun _ => .ok ["Too short.".toList])
      (fun _ => .ok []) (fun _ => .ok "\x7b\x7d".toList) "Too short.".toList
      rfl).1 (by decide)⟩

/-- C2: whenever the cleaned (stripped and fence-stripped) AI response text
parses as a JSON value v, analyze_with_gemini returns exactly v, and the
endpoint (under the hypotheses that let the request reach the AI stage)
returns HTTP 200 with exactly v as the body — no re-shaping, no key
filtering and no schema validation, including when v lacks required keys or
is not a JSON object at all. -/
theorem C2_pass_through {β : Type} (geminiKey : Option Str)
    (hkey : pyTruthyKey geminiKey = true)
    (jobDescription : Str) (hjd : pyStrip jobDescription ≠ [])
    (filename : Str) (content : β)
    (pdfPages docxParas : β → Except Str (List Str))
    (t : Str)
    (hex : extract_text_from_file filename content pdfPages docxParas = .ok t)
    (hlen : 50 ≤ (pyStrip t).length)
    (raw : Str) (v : Json)
    (hparse : loads (cleanResponse (pyStrip raw)) = .ok v) :
    analyze_with_gemini t jobDescription (fun _ => .ok raw) = .ok v
    ∧ analyze_resume geminiKey filename content jobDescription pdfPages docxParas
        (fun _ => .ok raw)
      = (.ok 200 v, ⟨true, true⟩) := by
  have he1 : jobDescription.isEmpty = false :=
    isEmpty_false_of_ne_nil (ne_nil_of_pyStrip_ne_nil hjd)
  have he2 : (pyStrip jobDescription).isEmpty = false := isEmpty_false_of_ne_nil hjd
  have hall := extension_allowed_of_extract_ok hex
  have htne : t ≠ [] := by
    intro he
    rw [he, pyStrip_nil] at hlen
    simp at hlen
  have hte : t.isEmpty = false := isEmpty_false_of_ne_nil htne
  have hnlt : ¬(pyStrip t).length < 50 := by omega
  have hd : decide ((pyStrip t).length < 50) = false := decide_eq_false hnlt
  have hai : analyze_with_gemini t jobDescription (fun _ => .ok raw) = .ok v := by
    unfold analyze_with_gemini
    simp [hparse]
  refine ⟨hai, ?_⟩
  simp only [analyze_resume, hkey, Bool.not_true, Bool.false_eq_true, if_false,
    he1, he2, Bool.or_self, hall, if_true, hex, hte, hd, hai, eq_self_iff_true]

theorem C2_witness :
    loads (cleanResponse (pyStrip "[1, 2]".toList)) = .ok (.arr [.num ['1'], .num ['2']])
    ∧ analyze_resume (β := Unit) (some "key".toList) "resume.pdf".toList ()
        "Python backend engineer".toList
        (fun _ => .ok ["Experienced Python developer with five years of FastAPI and SQL work.".toList])
        (fun _ => .ok []) (fun _ => .ok "[1, 2]".toList)
      = (.ok 200 (.arr [.num ['1'], .num ['2']]), ⟨true, true⟩) :=
  ⟨rfl,
    (C2_pass_through (some "key".toList) rfl "Python backend engineer".toList
      (by decide) "resume.pdf".toList ()
      (fun _ => .ok ["Experienced Python developer with five years of FastAPI and SQL work.".toList])
      (fun _ => .ok [])
      "Experienced Python developer with five years of FastAPI and SQL work.".toList
      rfl (by decide) "[1, 2]".toList (.arr [.num ['1'], .num ['2']]) rfl).2⟩

/-- C8: whenever the cleaned (stripped and fence-stripped) AI response text
fails to parse as JSON, analyze_with_gemini fails with a 500 whose detail is
the fixed prefix followed by the parser error message, and returns no
partially-populated result.  The detail is built only from the prefix and
the parser message (one of the fixed texts of renderErr), never from the raw
response text: the raw text is only printed to the server log, which the
model does not represent. -/
theorem C8_parse_error (resume_text jobDescription : Str) (raw : Str) (e : ParseErr)
    (hparse : loads (cleanResponse (pyStrip raw)) = .error e) :
    analyze_with_gemini resume_text jobDescription (fun _ => .ok raw)
      = .error (500, "Failed to parse AI response as JSON: ".toList ++ renderErr e) := by
  unfold analyze_with_gemini
  simp [hparse]

theorem C8_witness :
    loads (cleanResponse (pyStrip "I cannot answer that.".toList))
      = .error .expectingValue
    ∧ analyze_with_gemini "resume text".toList "job".toList
        (fun _ => .ok "I cannot answer that.".toList)
      = .error (500, "Failed to parse AI response as JSON: ".toList
          ++ renderErr .expectingValue) :=
  ⟨rfl, C8_parse_error "resume text".toList "job".toList
    "I cannot answer that.".toList .expectingValue rfl⟩

/-- C1 counterexample: a request that succeeds end to end with the AI
response consisting of the empty JSON object is returned as HTTP 200, yet
the body violates the AnalysisResult shape invariant (every required key is
missing) — refuting the claim that every success satisfies the shape
invariant. -/
theorem C1_counterexample :
    (analyze_resume (β := Unit) (some "key".toList) "resume.pdf".toList ()
        "Python backend engineer".toList
        (fun _ => .ok ["Experienced Python developer with five years of FastAPI and SQL work.".toList])
        (fun _ => .ok []) (fun _ => .ok "\x7b\x7d".toList)).1
      = .ok 200 (.obj [])
    ∧ specAnalysisResultShape (.obj []) = false :=
  ⟨rfl, rfl⟩

/-- C1 amended: every success (HTTP 200) body of POST /api/resume/analyze is
exactly the JSON value parsed from the cleaned AI response text — the body
is always valid JSON (the parse must succeed for the request to succeed),
but the AnalysisResult shape is never checked, so a well-formed JSON value
violating the shape (such as the empty object of the counterexample) is
surfaced as success. -/
theorem C1_amended {β : Type} (geminiKey : Option Str) (filename : Str)
    (content : β) (jobDescription : Str)
    (pdfPages docxParas : β → Except Str (List Str)) (raw : Str) (v : Json)
    (tr : Trace)
    (h : analyze_resume geminiKey filename content jobDescription pdfPages docxParas
          (fun _ => .ok raw) = (.ok 200 v, tr)) :
    loads (cleanResponse (pyStrip raw)) = .ok v := by
  unfold analyze_resume at h
  split at h
  · simp at h
  · split at h
    · simp at h
    · split at h
      · simp at h
      · split at h
        · simp at h
        · rename_i resume_text heq
          split at h
          · simp at h
          · rename_i hlen
            split at h
            · simp at h
            · rename_i v' hai
              unfold analyze_with_gemini at hai
              simp only at hai
              split at hai
              · simp at hai
              · rename_i w hw
                rw [Prod.mk.injEq] at h
                obtain ⟨hresp, -⟩ := h
                injection hai with hai
                injection hresp with _ hbody
                rw [hw, hai, hbody]

theorem C1_amended_witness :
    loads (cleanResponse (pyStrip "\x7b\x7d".toList)) = .ok (.obj []) :=
  C1_amended (β := Unit) (some "key".toList) "resume.pdf".toList ()
    "Python backend engineer".toList
    (fun _ => .ok ["Experienced Python developer with five years of FastAPI and SQL work.".toList])
    (fun _ => .ok []) "\x7b\x7d".toList (.obj []) ⟨true, true⟩ rfl

-- ============================================================
-- Character class lemmas
-- ============================================================

theorem jsonWs_cases {c : Char} (h : isJsonWs c = true) :
    c = ' ' ∨ c = '\t' ∨ c = '\n' ∨ c = '\r' := by
  simp only [isJsonWs, Bool.or_eq_true, beq_iff_eq] at h
  tauto

theorem pyWs_cases {c : Char} (h : isPyWs c = true) :
    c = ' ' ∨ c = '\t' ∨ c = '\n' ∨ c = '\r' ∨ c = '\x0b' ∨ c = '\x0c' := by
  simp only [isPyWs, Bool.or_eq_true, beq_iff_eq] at h
  tauto

theorem jsonWs_pyWs {c : Char} (h : isJsonWs c = true) : isPyWs c = true := by
  rcases jsonWs_cases h with h | h | h | h <;> subst h <;> decide

theorem jsonWs_tokenStart {c : Char} (h : isJsonWs c = true) :
    tokenStart c = false := by
  rcases jsonWs_cases h with h | h | h | h <;> subst h <;> decide

theorem pyWs_tokenStart {c : Char} (h : isPyWs c = true) : tokenStart c = false := by
  rcases pyWs_cases h with h | h | h | h | h | h <;> subst h <;> decide

theorem tokenStart_not_pyWs {c : Char} (h : tokenStart c = true) :
    isPyWs c = false := by
  by_contra hw
  rw [Bool.not_eq_false] at hw
  rw [pyWs_tokenStart hw] at h
  exact absurd h (by decide)

theorem tokenStart_not_jsonWs {c : Char} (h : tokenStart c = true) :
    isJsonWs c = false := by
  by_contra hw
  rw [Bool.not_eq_false] at hw
  rw [jsonWs_tokenStart hw] at h
  exact absurd h (by decide)

theorem tokenStart_ne {c x : Char} (h : tokenStart c = true)
    (hx : tokenStart x = false) : c ≠ x := by
  intro he
  rw [he, hx] at h
  exact absurd h (by decide)

theorem digit_not_pyWs {c : Char} (h : isDigitChar c = true) : isPyWs c = false := by
  have ht : tokenStart c = true := by
    simp [tokenStart, h]
  exact tokenStart_not_pyWs ht

theorem digit_tokenStart {c : Char} (h : isDigitChar c = true) :
    tokenStart c = true := by
  simp [tokenStart, h]

theorem jsonWs_not_digit {c : Char} (h : isJsonWs c = true) :
    isDigitChar c = false := by
  by_contra hd
  rw [Bool.not_eq_false] at hd
  have h1 := jsonWs_tokenStart h
  have h2 := digit_tokenStart hd
  rw [h1] at h2
  exact absurd h2 (by decide)

-- ============================================================
-- List helper lemmas
-- ============================================================

theorem headD_append_left {x : Str} (y : Str) (d : Char) (h : x ≠ []) :
    (x ++ y).headD d = x.headD d := by
  cases x with
  | nil => exact absurd rfl h
  | cons a x' => rfl

theorem getLastD_irrel {y : Str} (h : y ≠ []) (d1 d2 : Char) :
    y.getLastD d1 = y.getLastD d2 := by
  cases y with
  | nil => exact absurd rfl h
  | cons b m => rw [List.getLastD_cons, List.getLastD_cons]

theorem getLastD_append_right (x : Str) {y : Str} (d : Char) (h : y ≠ []) :
    (x ++ y).getLastD d = y.getLastD d := by
  induction x generalizing d with
  | nil => rfl
  | cons a x' ih =>
    rw [List.cons_append, List.getLastD_cons, ih a]
    exact getLastD_irrel h a d

theorem getLastD_concat (x : Str) (c d : Char) : (x ++ [c]).getLastD d = c := by
  rw [getLastD_append_right x d (by simp)]
  rfl

theorem mem_getLastD {l : Str} (d : Char) (h : l ≠ []) : l.getLastD d ∈ l := by
  induction l with
  | nil => exact absurd rfl h
  | cons a l' ih =>
    rw [List.getLastD_cons]
    cases hl : l' with
    | nil => simp [hl]
    | cons b m =>
      rw [← hl]
      have : l'.getLastD a ∈ l' := by
        have := ih (by rw [hl]; simp)
        have hda : l'.getLastD a = l'.getLastD d := by
          rw [hl]
          rw [List.getLastD_cons, List.getLastD_cons]
        rw [hda]
        exact ih (by rw [hl]; simp)
      exact List.mem_cons_of_mem a this

theorem append_split_of_le {x w p r : Str} (h : x ++ w = p ++ r)
    (hlen : p.length ≤ x.length) : ∃ s, x = p ++ s ∧ r = s ++ w := by
  induction p generalizing x with
  | nil => exact ⟨x, rfl, h.symm⟩
  | cons a p' ih =>
    cases x with
    | nil => simp at hlen
    | cons b x' =>
      rw [List.cons_append, List.cons_append] at h
      injection h with h1 h2
      obtain ⟨s, hs1, hs2⟩ := ih h2 (by simpa using hlen)
      exact ⟨s, by rw [h1, List.cons_append, hs1], hs2⟩

/-- A successful parse on input followed by trailing whitespace consumes a
prefix that ends in a non-whitespace character, hence stays inside the
original input. -/
theorem split_consumed {x w p r : Str} (h : x ++ w = p ++ r)
    (hw : ∀ c ∈ w, isJsonWs c = true)
    (hlast : isPyWs (p.getLastD ' ') = false) :
    ∃ s, x = p ++ s ∧ r = s ++ w := by
  rcases le_or_lt p.length x.length with hle | hlt
  · exact append_split_of_le h hle
  · exfalso
    obtain ⟨z, hz1, hz2⟩ := append_split_of_le h.symm (by omega)
    have hzne : z ≠ [] := by
      intro hznil
      rw [hznil, List.append_nil] at hz1
      rw [hz1] at hlt
      omega
    have hmem : z.getLastD ' ' ∈ w := by
      rw [hz2]
      exact List.mem_append_left r (mem_getLastD ' ' hzne)
    have hws : isJsonWs (z.getLastD ' ') = true := hw _ hmem
    have : isPyWs (p.getLastD ' ') = true := by
      rw [hz1, getLastD_append_right x ' ' hzne]
      exact jsonWs_pyWs hws
    rw [this] at hlast
    exact absurd hlast (by decide)

theorem takeWhile_all {p : Char → Bool} :
    ∀ l : Str, ∀ c ∈ l.takeWhile p, p c = true := by
  intro l
  induction l with
  | nil => intro c hc; simp at hc
  | cons a l' ih =>
    intro c hc
    rw [List.takeWhile_cons] at hc
    by_cases hpa : p a = true
    · rw [if_pos hpa] at hc
      rcases List.mem_cons.mp hc with h | h
      · rwa [h]
      · exact ih c h
    · rw [if_neg hpa] at hc
      simp at hc

-- ============================================================
-- skipWs lemmas
-- ============================================================

theorem skipWs_nil : skipWs [] = [] := rfl

theorem skipWs_nil_of_all {x : Str} (h : ∀ c ∈ x, isJsonWs c = true) :
    skipWs x = [] := by
  induction x with
  | nil => rfl
  | cons a x' ih =>
    unfold skipWs at *
    rw [List.dropWhile_cons, if_pos (h a (List.mem_cons_self a x'))]
    exact ih (fun c hc => h c (List.mem_cons_of_mem a hc))

theorem all_of_skipWs_nil {x : Str} (h : skipWs x = []) :
    ∀ c ∈ x, isJsonWs c = true := by
  induction x with
  | nil => intro c hc; simp at hc
  | cons a x' ih =>
    unfold skipWs at h
    rw [List.dropWhile_cons] at h
    by_cases hpa : isJsonWs a = true
    · rw [if_pos hpa] at h
      intro c hc
      rcases List.mem_cons.mp hc with he | hm
      · rwa [he]
      · exact ih h c hm
    · rw [if_neg hpa] at h
      simp at h

theorem skipWs_append_cons {x y w : Str} {c : Char} (h : skipWs x = c :: y) :
    skipWs (x ++ w) = c :: (y ++ w) := by
  induction x with
  | nil => simp [skipWs] at h
  | cons a x' ih =>
    unfold skipWs at *
    rw [List.cons_append, List.dropWhile_cons]
    rw [List.dropWhile_cons] at h
    by_cases hpa : isJsonWs a = true
    · rw [if_pos hpa] at h ⊢
      exact ih h
    · rw [if_neg hpa] at h ⊢
      injection h with h1 h2
      rw [h1, h2]

theorem skipWs_eq_self_of_head {x : Str} {c : Char} (hx : x.headD ' ' = c)
    (hc : isJsonWs c = false) (hne : x ≠ []) : skipWs x = x := by
  cases x with
  | nil => exact absurd rfl hne
  | cons a x' =>
    simp only [List.headD_cons] at hx
    unfold skipWs
    rw [List.dropWhile_cons, if_neg (by rw [hx, hc]; simp)]

theorem skipWs_decompose (x : Str) :
    x = x.takeWhile isJsonWs ++ skipWs x :=
  (List.takeWhile_append_dropWhile isJsonWs x).symm

-- ============================================================
-- parseStringBody lemmas
-- ============================================================

/-- Successful string-body parses decompose the input as the raw content
followed by the closing quote and the rest, and replay on any other rest. -/
theorem parseStringBody_shape_aux :
    ∀ (n : Nat) (l : Str), l.length ≤ n →
      ∀ s r, parseStringBody l = .ok (s, r) →
        l = s ++ '"' :: r ∧ ∀ r', parseStringBody (s ++ '"' :: r') = .ok (s, r') := by
  intro n
  induction n with
  | zero =>
    intro l hl s r h
    have hnil : l = [] := List.length_eq_zero.mp (Nat.le_zero.mp hl)
    rw [hnil, parseStringBody.eq_def] at h
    simp at h
  | succ n ih =>
    intro l hl s r h
    cases l with
    | nil => rw [parseStringBody.eq_def] at h; simp at h
    | cons c rest =>
      rw [List.length_cons] at hl
      rw [parseStringBody.eq_def] at h
      simp only at h
      by_cases hq : (c == '"') = true
      · simp only [hq, if_true] at h
        injection h with h1
        injection h1 with hs hr
        subst hs
        subst hr
        refine ⟨by rw [eq_of_beq hq]; rfl, ?_⟩
        intro r'
        rw [List.nil_append, parseStringBody.eq_def]
        simp
      · by_cases hbs : (c == '\\') = true
        · simp only [hq, hbs, if_false, if_true, Bool.false_eq_true] at h
          cases rest with
          | nil => simp at h
          | cons e rest2 =>
            rw [List.length_cons] at hl
            by_cases hu : (e == 'u') = true
            · simp only [hu, if_true] at h
              cases rest2 with
              | nil => simp at h
              | cons h1 rest21 =>
              cases rest21 with
              | nil => simp at h
              | cons h2 rest22 =>
              cases rest22 with
              | nil => simp at h
              | cons h3 rest23 =>
              cases rest23 with
              | nil => simp at h
              | cons h4 rest3 =>
              simp only [List.length_cons] at hl
              by_cases hhex :
                  (isHexDigit h1 && isHexDigit h2 && isHexDigit h3 && isHexDigit h4) = true
              · simp only [hhex, if_true] at h
                cases hps : parseStringBody rest3 with
                | error err => rw [hps] at h; simp at h
                | ok p =>
                  obtain ⟨s3, r3⟩ := p
                  rw [hps] at h
                  simp only at h
                  injection h with h1'
                  injection h1' with hs hr
                  subst hr
                  obtain ⟨hdec, hreplay⟩ := ih rest3 (by omega) s3 r3 hps
                  constructor
                  · rw [← hs, hdec]
                    rfl
                  · intro r'
                    rw [← hs]
                    simp only [List.cons_append]
                    rw [parseStringBody.eq_def]
                    simp only [hq, hbs, hu, hhex, if_true, if_false,
                      Bool.false_eq_true, hreplay r']
              · simp [hhex] at h
            · by_cases hesc : isSimpleEscape e = true
              · simp only [hu, hesc, if_true, if_false, Bool.false_eq_true] at h
                cases hps : parseStringBody rest2 with
                | error err => rw [hps] at h; simp at h
                | ok p =>
                  obtain ⟨s2, r2⟩ := p
                  rw [hps] at h
                  simp only at h
                  injection h with h1'
                  injection h1' with hs hr
                  subst hr
                  obtain ⟨hdec, hreplay⟩ := ih rest2 (by omega) s2 r2 hps
                  constructor
                  · rw [← hs, hdec]
                    rfl
                  · intro r'
                    rw [← hs]
                    simp only [List.cons_append]
                    rw [parseStringBody.eq_def]
                    simp only [hq, hbs, hu, hesc, if_true, if_false,
                      Bool.false_eq_true, hreplay r']
              · simp [hu, hesc] at h
        · by_cases hctl : c.toNat < 32
          · simp [hq, hbs, hctl] at h
          · simp only [hq, hbs, hctl, if_false, if_true, Bool.false_eq_true] at h
            cases hps : parseStringBody rest with
            | error err => rw [hps] at h; simp at h
            | ok p =>
              obtain ⟨s1, r1⟩ := p
              rw [hps] at h
              simp only at h
              injection h with h1'
              injection h1' with hs hr
              subst hr
              obtain ⟨hdec, hreplay⟩ := ih rest (by omega) s1 r1 hps
              constructor
              · rw [← hs, hdec]
                rfl
              · intro r'
                rw [← hs]
                simp only [List.cons_append]
                rw [parseStringBody.eq_def]
                simp only [hq, hbs, hctl, if_true, if_false,
                  Bool.false_eq_true, hreplay r']

theorem parseStringBody_shape {l s r : Str} (h : parseStringBody l = .ok (s, r)) :
    l = s ++ '"' :: r ∧ ∀ r', parseStringBody (s ++ '"' :: r') = .ok (s, r') :=
  parseStringBody_shape_aux l.length l (Nat.le_refl _) s r h

-- ============================================================
-- Number lexer lemmas
-- ============================================================

theorem takeWhile_append_notP {P : Char → Bool} {w : Str}
    (hw : ∀ c ∈ w, P c = false) (x : Str) :
    (x ++ w).takeWhile P = x.takeWhile P
    ∧ (x ++ w).dropWhile P = x.dropWhile P ++ w := by
  induction x with
  | nil =>
    rw [List.nil_append, List.takeWhile_nil, List.dropWhile_nil, List.nil_append]
    cases w with
    | nil => exact ⟨rfl, rfl⟩
    | cons cw w' =>
      have hcw : P cw = false := hw cw (List.mem_cons_self _ _)
      rw [List.takeWhile_cons, List.dropWhile_cons, if_neg (by simp [hcw]),
        if_neg (by simp [hcw])]
      exact ⟨rfl, rfl⟩
  | cons a x' ih =>
    rw [List.cons_append, List.takeWhile_cons, List.takeWhile_cons,
      List.dropWhile_cons, List.dropWhile_cons]
    by_cases hpa : P a = true
    · rw [if_pos hpa, if_pos hpa, if_pos hpa, if_pos hpa, ih.1, ih.2]
      exact ⟨rfl, rfl⟩
    · rw [if_neg hpa, if_neg hpa, if_neg hpa, if_neg hpa]
      exact ⟨rfl, rfl⟩

theorem takeDigits_ws {w : Str} (hw : ∀ c ∈ w, isJsonWs c = true) (x : Str) :
    takeDigits (x ++ w) = ((takeDigits x).1, (takeDigits x).2 ++ w) := by
  have hnd : ∀ c ∈ w, isDigitChar c = false := fun c hc => jsonWs_not_digit (hw c hc)
  obtain ⟨h1, h2⟩ := takeWhile_append_notP hnd x
  simp [takeDigits, h1, h2]

theorem takeDigits_decompose (l : Str) : l = (takeDigits l).1 ++ (takeDigits l).2 :=
  (List.takeWhile_append_dropWhile isDigitChar l).symm

theorem takeDigits_all (l : Str) : ∀ c ∈ (takeDigits l).1, isDigitChar c = true :=
  takeWhile_all l

theorem mem_headD {l : Str} (d : Char) (h : l ≠ []) : l.headD d ∈ l := by
  cases l with
  | nil => exact absurd rfl h
  | cons a l' => exact List.mem_cons_self a l'

theorem parseIntPart_shape {x ip r : Str} (h : parseIntPart x = some (ip, r)) :
    x = ip ++ r ∧ ip ≠ [] ∧ ∀ c ∈ ip, isDigitChar c = true := by
  cases x with
  | nil => simp [parseIntPart] at h
  | cons a x' =>
    simp only [parseIntPart] at h
    by_cases h0 : (a == '0') = true
    · rw [if_pos h0] at h
      injection h with h1
      injection h1 with hip hr
      subst hr
      refine ⟨by rw [← hip]; rfl, by rw [← hip]; simp, ?_⟩
      intro c hc
      rw [← hip] at hc
      rcases List.mem_cons.mp hc with he | hm
      · rw [he, eq_of_beq h0]; decide
      · simp at hm
    · rw [if_neg h0] at h
      by_cases hda : isDigitChar a = true
      · rw [if_pos hda] at h
        injection h with h1
        injection h1 with hip hr
        subst hr
        refine ⟨?_, by rw [← hip]; simp, ?_⟩
        · rw [← hip, List.cons_append, ← takeDigits_decompose]
        · intro c hc
          rw [← hip] at hc
          rcases List.mem_cons.mp hc with he | hm
          · rwa [he]
          · exact takeDigits_all x' c hm
      · rw [if_neg hda] at h
        simp at h

theorem parseIntPart_ws {w : Str} (hw : ∀ c ∈ w, isJsonWs c = true) (x : Str) :
    parseIntPart (x ++ w)
      = (parseIntPart x).map (fun p => (p.1, p.2 ++ w)) := by
  cases x with
  | nil =>
    rw [List.nil_append]
    cases w with
    | nil => rfl
    | cons cw w' =>
      have hws := hw cw (List.mem_cons_self _ _)
      have hnd : isDigitChar cw = false := jsonWs_not_digit hws
      have hn0 : (cw == '0') = false := by
        rcases jsonWs_cases hws with h | h | h | h <;> subst h <;> decide
      simp [parseIntPart, hn0, hnd]
  | cons a x' =>
    rw [List.cons_append]
    simp only [parseIntPart]
    by_cases h0 : (a == '0') = true
    · rw [if_pos h0, if_pos h0]
      rfl
    · rw [if_neg h0, if_neg h0]
      by_cases hda : isDigitChar a = true
      · rw [if_pos hda, if_pos hda, takeDigits_ws hw x']
        rfl
      · rw [if_neg hda, if_neg hda]
        rfl

theorem parseFrac_shape (x : Str) :
    x = (parseFrac x).1 ++ (parseFrac x).2
    ∧ ((parseFrac x).1 = []
       ∨ ((parseFrac x).1 ≠ []
          ∧ isDigitChar ((parseFrac x).1.getLastD ' ') = true)) := by
  cases x with
  | nil => exact ⟨rfl, Or.inl rfl⟩
  | cons c rest =>
    by_cases hc : c = '.'
    · subst hc
      have hred : parseFrac ('.' :: rest)
          = (match takeDigits rest with
             | ([], _) => ([], '.' :: rest)
             | (d, r) => ('.' :: d, r)) := rfl
      rw [hred]
      cases htd : takeDigits rest with
      | mk d r =>
        have hdec : rest = d ++ r := by
          have := takeDigits_decompose rest
          rwa [htd] at this
        have hall : ∀ a ∈ d, isDigitChar a = true := by
          intro a ha
          have := takeDigits_all rest
          rw [htd] at this
          exact this a ha
        cases d with
        | nil => exact ⟨rfl, Or.inl rfl⟩
        | cons d0 d' =>
          refine ⟨?_, Or.inr ⟨by simp, ?_⟩⟩
          · show '.' :: rest = ('.' :: d0 :: d') ++ r
            rw [hdec]
            rfl
          · show isDigitChar (('.' :: d0 :: d').getLastD ' ') = true
            rw [List.getLastD_cons]
            exact hall _ (mem_getLastD _ (by simp))
    · have hred : parseFrac (c :: rest) = ([], c :: rest) := by
        rw [parseFrac.eq_def]
        split
        · rename_i heq
          injection heq with h1 h2
          exact absurd h1 hc
        · rfl
      rw [hred]
      exact ⟨rfl, Or.inl rfl⟩

theorem parseFrac_ws {w : Str} (hw : ∀ c ∈ w, isJsonWs c = true) (x : Str) :
    parseFrac (x ++ w) = ((parseFrac x).1, (parseFrac x).2 ++ w) := by
  cases x with
  | nil =>
    rw [List.nil_append]
    cases w with
    | nil => rfl
    | cons cw w' =>
      have hws := hw cw (List.mem_cons_self _ _)
      have hcw : cw ≠ '.' := by
        rcases jsonWs_cases hws with h | h | h | h <;> subst h <;> decide
      rw [parseFrac.eq_def]
      split
      · rename_i heq
        injection heq with h1 h2
        exact absurd h1 hcw
      · rfl
  | cons c rest =>
    by_cases hc : c = '.'
    · subst hc
      rw [List.cons_append]
      have hredL : parseFrac ('.' :: (rest ++ w))
          = (match takeDigits (rest ++ w) with
             | ([], _) => ([], '.' :: (rest ++ w))
             | (d, r) => ('.' :: d, r)) := rfl
      have hredR : parseFrac ('.' :: rest)
          = (match takeDigits rest with
             | ([], _) => ([], '.' :: rest)
             | (d, r) => ('.' :: d, r)) := rfl
      rw [hredL, hredR, takeDigits_ws hw rest]
      cases htd : takeDigits rest with
      | mk d r =>
        cases d with
        | nil => rfl
        | cons d0 d' => rfl
    · have hne : ∀ l, parseFrac (c :: l) = ([], c :: l) := by
        intro l
        rw [parseFrac.eq_def]
        split
        · rename_i heq
          injection heq with h1 h2
          exact absurd h1 hc
        · rfl
      rw [List.cons_append, hne, hne]
      rfl

theorem parseExp_shape (x : Str) :
    x = (parseExp x).1 ++ (parseExp x).2
    ∧ ((parseExp x).1 = []
       ∨ ((parseExp x).1 ≠ []
          ∧ isDigitChar ((parseExp x).1.getLastD ' ') = true)) := by
  cases x with
  | nil => exact ⟨rfl, Or.inl rfl⟩
  | cons c rest =>
    by_cases hce : (c == 'e' || c == 'E') = true
    · cases rest with
      | nil =>
        have hred : parseExp [c] = ([], [c]) := by
          rw [parseExp.eq_def]
          simp only [hce, if_true]
        rw [hred]
        exact ⟨rfl, Or.inl rfl⟩
      | cons s rest2 =>
        by_cases hs : (s == '+' || s == '-') = true
        · have hred : parseExp (c :: s :: rest2)
              = (match takeDigits rest2 with
                 | ([], _) => ([], c :: s :: rest2)
                 | (d, r) => (c :: s :: d, r)) := by
            rw [parseExp.eq_def]
            simp only [hce, hs, if_true]
          rw [hred]
          cases htd : takeDigits rest2 with
          | mk d r =>
            have hdec : rest2 = d ++ r := by
              have := takeDigits_decompose rest2
              rwa [htd] at this
            have hall : ∀ a ∈ d, isDigitChar a = true := by
              intro a ha
              have := takeDigits_all rest2
              rw [htd] at this
              exact this a ha
            cases d with
            | nil => exact ⟨rfl, Or.inl rfl⟩
            | cons d0 d' =>
              refine ⟨?_, Or.inr ⟨by simp, ?_⟩⟩
              · show c :: s :: rest2 = (c :: s :: d0 :: d') ++ r
                rw [hdec]
                rfl
              · rw [List.getLastD_cons, List.getLastD_cons]
                exact hall _ (mem_getLastD _ (by simp))
        · have hs' : (s == '+' || s == '-') = false := by simpa using hs
          have hred : parseExp (c :: s :: rest2)
              = (match takeDigits (s :: rest2) with
                 | ([], _) => ([], c :: s :: rest2)
                 | (d, r) => (c :: d, r)) := by
            rw [parseExp.eq_def]
            simp only [hce, hs', if_true, Bool.false_eq_true, if_false]
          rw [hred]
          cases htd : takeDigits (s :: rest2) with
          | mk d r =>
            have hdec : s :: rest2 = d ++ r := by
              have := takeDigits_decompose (s :: rest2)
              rwa [htd] at this
            have hall : ∀ a ∈ d, isDigitChar a = true := by
              intro a ha
              have := takeDigits_all (s :: rest2)
              rw [htd] at this
              exact this a ha
            cases d with
            | nil => exact ⟨rfl, Or.inl rfl⟩
            | cons d0 d' =>
              refine ⟨?_, Or.inr ⟨by simp, ?_⟩⟩
              · show c :: s :: rest2 = (c :: d0 :: d') ++ r
                rw [hdec]
                rfl
              · rw [List.getLastD_cons]
                exact hall _ (mem_getLastD _ (by simp))
    · have hce' : (c == 'e' || c == 'E') = false := by simpa using hce
      have hred : parseExp (c :: rest) = ([], c :: rest) := by
        rw [parseExp.eq_def]
        simp only [hce', Bool.false_eq_true, if_false]
      rw [hred]
      exact ⟨rfl, Or.inl rfl⟩

theorem parseExp_ws {w : Str} (hw : ∀ c ∈ w, isJsonWs c = true) (x : Str) :
    parseExp (x ++ w) = ((parseExp x).1, (parseExp x).2 ++ w) := by
  cases x with
  | nil =>
    rw [List.nil_append]
    cases w with
    | nil => rfl
    | cons cw w' =>
      have hws := hw cw (List.mem_cons_self _ _)
      have hcw : (cw == 'e' || cw == 'E') = false := by
        rcases jsonWs_cases hws with h | h | h | h <;> subst h <;> decide
      rw [parseExp.eq_def]
      simp only [hcw, Bool.false_eq_true, if_false]
      rfl
  | cons c rest =>
    rw [List.cons_append]
    by_cases hce : (c == 'e' || c == 'E') = true
    · cases rest with
      | nil =>
        rw [List.nil_append]
        cases w with
        | nil => simp
        | cons s w' =>
          have hws := hw s (List.mem_cons_self _ _)
          have hs : (s == '+' || s == '-') = false := by
            rcases jsonWs_cases hws with h | h | h | h <;> subst h <;> decide
          have hnd : isDigitChar s = false := jsonWs_not_digit hws
          have htdw : takeDigits (s :: w') = ([], s :: w') := by
            simp [takeDigits, List.takeWhile_cons, List.dropWhile_cons, hnd]
          have hL : parseExp (c :: s :: w') = ([], c :: s :: w') := by
            rw [parseExp.eq_def]
            simp only [hce, if_true, hs, Bool.false_eq_true, if_false, htdw]
          have hR : parseExp [c] = ([], [c]) := by
            rw [parseExp.eq_def]
            simp only [hce, if_true]
          rw [hL, hR]
          rfl
      | cons s rest2 =>
        rw [List.cons_append]
        by_cases hs : (s == '+' || s == '-') = true
        · have hL : parseExp (c :: s :: (rest2 ++ w))
              = (match takeDigits (rest2 ++ w) with
                 | ([], _) => ([], c :: s :: (rest2 ++ w))
                 | (d, r) => (c :: s :: d, r)) := by
            rw [parseExp.eq_def]
            simp only [hce, hs, if_true]
          have hR : parseExp (c :: s :: rest2)
              = (match takeDigits rest2 with
                 | ([], _) => ([], c :: s :: rest2)
                 | (d, r) => (c :: s :: d, r)) := by
            rw [parseExp.eq_def]
            simp only [hce, hs, if_true]
          rw [hL, hR, takeDigits_ws hw rest2]
          cases htd : takeDigits rest2 with
          | mk d r =>
            cases d with
            | nil => rfl
            | cons d0 d' => rfl
        · have hs' : (s == '+' || s == '-') = false := by simpa using hs
          have hL : parseExp (c :: s :: (rest2 ++ w))
              = (match takeDigits (s :: (rest2 ++ w)) with
                 | ([], _) => ([], c :: s :: (rest2 ++ w))
                 | (d, r) => (c :: d, r)) := by
            rw [parseExp.eq_def]
            simp only [hce, hs', if_true, Bool.false_eq_true, if_false]
          have hR : parseExp (c :: s :: rest2)
              = (match takeDigits (s :: rest2) with
                 | ([], _) => ([], c :: s :: rest2)
                 | (d, r) => (c :: d, r)) := by
            rw [parseExp.eq_def]
            simp only [hce, hs', if_true, Bool.false_eq_true, if_false]
          have htt : takeDigits (s :: (rest2 ++ w))
              = ((takeDigits (s :: rest2)).1, (takeDigits (s :: rest2)).2 ++ w) := by
            have := takeDigits_ws hw (s :: rest2)
            rwa [List.cons_append] at this
          rw [hL, hR, htt]
          cases htd : takeDigits (s :: rest2) with
          | mk d r =>
            cases d with
            | nil => rfl
            | cons d0 d' => rfl
    · have hce' : (c == 'e' || c == 'E') = false := by simpa using hce
      have h1 : parseExp (c :: (rest ++ w)) = ([], c :: (rest ++ w)) := by
        rw [parseExp.eq_def]
        simp only [hce', Bool.false_eq_true, if_false]
      have h2 : parseExp (c :: rest) = ([], c :: rest) := by
        rw [parseExp.eq_def]
        simp only [hce', Bool.false_eq_true, if_false]
      rw [h1, h2]
      rfl

theorem append_ne_nil_left {x : Str} (y : Str) (h : x ≠ []) : x ++ y ≠ [] := by
  intro habs
  exact h (List.append_eq_nil.mp habs).1

theorem append_ne_nil_right (x : Str) {y : Str} (h : y ≠ []) : x ++ y ≠ [] := by
  intro habs
  exact h (List.append_eq_nil.mp habs).2

theorem lex_last_digit {x fp ep : Str}
    (hxd : isDigitChar (x.getLastD ' ') = true)
    (hfp : fp = [] ∨ (fp ≠ [] ∧ isDigitChar (fp.getLastD ' ') = true))
    (hep : ep = [] ∨ (ep ≠ [] ∧ isDigitChar (ep.getLastD ' ') = true)) :
    isDigitChar (((x ++ fp) ++ ep).getLastD ' ') = true := by
  rcases hep with he | ⟨hne, hd⟩
  · subst he
    rw [List.append_nil]
    rcases hfp with hf | ⟨hfne, hfd⟩
    · subst hf
      rw [List.append_nil]
      exact hxd
    · rw [getLastD_append_right x ' ' hfne]
      exact hfd
  · rw [getLastD_append_right (x ++ fp) ' ' hne]
    exact hd

/-- Shape of a successful number lex: the input splits as the lexeme and the
rest, the lexeme is nonempty, begins with a sign or digit, and ends with a
digit. -/
theorem parseNumber_shape {l lex r : Str} (h : parseNumber l = some (lex, r)) :
    l = lex ++ r ∧ lex ≠ [] ∧ tokenStart (lex.headD ' ') = true
    ∧ isPyWs (lex.getLastD ' ') = false := by
  simp only [parseNumber] at h
  by_cases hd : (l.headD ' ' == '-') = true
  · rw [if_pos hd, if_pos hd] at h
    cases hip : parseIntPart l.tail with
    | none => rw [hip] at h; simp at h
    | some p =>
      obtain ⟨ip, l2⟩ := p
      rw [hip] at h
      simp only at h
      cases hpf : parseFrac l2 with
      | mk fp l3 =>
        rw [hpf] at h
        cases hpe : parseExp l3 with
        | mk ep l4 =>
          rw [hpe] at h
          simp only at h
          injection h with h1
          injection h1 with hlex hr
          obtain ⟨hip1, hip2, hip3⟩ := parseIntPart_shape hip
          obtain ⟨hf1, hf2⟩ := parseFrac_shape l2
          rw [hpf] at hf1 hf2
          obtain ⟨he1, he2⟩ := parseExp_shape l3
          rw [hpe] at he1 he2
          simp only at hf1 hf2 he1 he2
          have hlne : l ≠ [] := by
            intro he
            rw [he] at hd
            exact absurd hd (by decide)
          have hlform : l = '-' :: l.tail := by
            cases l with
            | nil => exact absurd rfl hlne
            | cons a t =>
              simp only [List.headD_cons] at hd
              rw [List.tail_cons, eq_of_beq hd]
          have hxne : (['-'] : Str) ++ ip ≠ [] := append_ne_nil_left _ (by simp)
          have hxd : isDigitChar ((['-'] ++ ip).getLastD ' ') = true := by
            rw [getLastD_append_right ['-'] ' ' hip2]
            exact hip3 _ (mem_getLastD ' ' hip2)
          refine ⟨?_, ?_, ?_, ?_⟩
          · rw [← hlex, ← hr, hlform, hip1, hf1, he1]
            simp [List.append_assoc]
          · rw [← hlex]
            exact append_ne_nil_left _ (append_ne_nil_left _ hxne)
          · rw [← hlex,
              headD_append_left _ ' ' (append_ne_nil_left _ hxne),
              headD_append_left _ ' ' hxne,
              headD_append_left _ ' ' (by simp : (['-'] : Str) ≠ [])]
            decide
          · rw [← hlex]
            exact digit_not_pyWs (lex_last_digit hxd hf2 he2)
  · rw [if_neg hd, if_neg hd] at h
    cases hip : parseIntPart l with
    | none => rw [hip] at h; simp at h
    | some p =>
      obtain ⟨ip, l2⟩ := p
      rw [hip] at h
      simp only at h
      cases hpf : parseFrac l2 with
      | mk fp l3 =>
        rw [hpf] at h
        cases hpe : parseExp l3 with
        | mk ep l4 =>
          rw [hpe] at h
          simp only at h
          injection h with h1
          injection h1 with hlex hr
          obtain ⟨hip1, hip2, hip3⟩ := parseIntPart_shape hip
          obtain ⟨hf1, hf2⟩ := parseFrac_shape l2
          rw [hpf] at hf1 hf2
          obtain ⟨he1, he2⟩ := parseExp_shape l3
          rw [hpe] at he1 he2
          simp only at hf1 hf2 he1 he2
          have hxd : isDigitChar (ip.getLastD ' ') = true :=
            hip3 _ (mem_getLastD ' ' hip2)
          refine ⟨?_, ?_, ?_, ?_⟩
          · rw [← hlex, ← hr, hip1, hf1, he1]
            simp [List.append_assoc]
          · rw [← hlex]
            simp only [List.nil_append]
            exact append_ne_nil_left _ (append_ne_nil_left _ hip2)
          · rw [← hlex]
            simp only [List.nil_append]
            rw [headD_append_left _ ' ' (append_ne_nil_left _ hip2),
              headD_append_left _ ' ' hip2]
            exact digit_tokenStart (hip3 _ (mem_headD ' ' hip2))
          · rw [← hlex]
            simp only [List.nil_append]
            exact digit_not_pyWs (lex_last_digit hxd hf2 he2)

theorem parseNumber_ws {w : Str} (hw : ∀ c ∈ w, isJsonWs c = true) (x : Str) :
    parseNumber (x ++ w) = (parseNumber x).map (fun p => (p.1, p.2 ++ w)) := by
  cases x with
  | nil =>
    rw [List.nil_append]
    cases w with
    | nil => rfl
    | cons cw w' =>
      have hws := hw cw (List.mem_cons_self _ _)
      have hnd : (cw == '-') = false := by
        rcases jsonWs_cases hws with h | h | h | h <;> subst h <;> decide
      have hdig : isDigitChar cw = false := jsonWs_not_digit hws
      have h0 : (cw == '0') = false := by
        rcases jsonWs_cases hws with h | h | h | h <;> subst h <;> decide
      have hiw : parseIntPart (cw :: w') = none := by
        simp [parseIntPart, h0, hdig]
      simp only [parseNumber, List.headD_cons, hnd, Bool.false_eq_true, if_false,
        hiw]
      rfl
  | cons a x' =>
    rw [List.cons_append]
    by_cases hd : (a == '-') = true
    · simp only [parseNumber, List.headD_cons, hd, if_true, List.tail_cons]
      rw [parseIntPart_ws hw x']
      cases hip : parseIntPart x' with
      | none => rfl
      | some p =>
        obtain ⟨ip, l2⟩ := p
        simp only [Option.map_some']
        rw [parseFrac_ws hw l2]
        simp only []
        rw [parseExp_ws hw (parseFrac l2).2]
    · have hd' : (a == '-') = false := by simpa using hd
      simp only [parseNumber, List.headD_cons, hd', Bool.false_eq_true, if_false]
      have hipw : parseIntPart (a :: (x' ++ w))
          = (parseIntPart (a :: x')).map (fun p => (p.1, p.2 ++ w)) := by
        have := parseIntPart_ws hw (a :: x')
        rwa [List.cons_append] at this
      rw [hipw]
      cases hip : parseIntPart (a :: x') with
      | none => rfl
      | some p =>
        obtain ⟨ip, l2⟩ := p
        simp only [Option.map_some']
        rw [parseFrac_ws hw l2]
        simp only []
        rw [parseExp_ws hw (parseFrac l2).2]

-- ============================================================
-- Consumed-prefix shape of the JSON value parser
-- ============================================================

theorem isPrefixOf_eq_append {k l : Str} (h : k.isPrefixOf l = true) :
    l = k ++ l.drop k.length := by
  rw [List.isPrefixOf_iff_prefix] at h
  exact (List.prefix_iff_eq_append.mp h).symm

/-- Consumed-prefix shape of the JSON parser: a successful parse splits its
input as a nonempty consumed prefix (beginning with a token-start character
and ending with a non-whitespace character) followed by the rest, and
succeeds identically at any fuel exceeding twice the consumed length. -/
theorem parse_shape :
    ∀ f : Nat,
      (∀ l v r, parseValue f l = .ok (v, r) →
        ∃ p, l = p ++ r ∧ p ≠ [] ∧ tokenStart (p.headD ' ') = true
          ∧ isPyWs (p.getLastD ' ') = false
          ∧ ∀ f', 2 * p.length < f' → parseValue f' l = .ok (v, r))
      ∧ (∀ l vs r, parseArrLoop f l = .ok (vs, r) →
        ∃ p, l = p ++ r ∧ p ≠ [] ∧ tokenStart (p.headD ' ') = true
          ∧ isPyWs (p.getLastD ' ') = false
          ∧ ∀ f', 2 * p.length < f' → parseArrLoop f' l = .ok (vs, r))
      ∧ (∀ l kvs r, parseObjLoop f l = .ok (kvs, r) →
        ∃ p, l = p ++ r ∧ p ≠ [] ∧ tokenStart (p.headD ' ') = true
          ∧ isPyWs (p.getLastD ' ') = false
          ∧ ∀ f', 2 * p.length < f' → parseObjLoop f' l = .ok (kvs, r)) := by
  intro f
  induction f with
  | zero =>
    refine ⟨?_, ?_, ?_⟩ <;> intro l a r h <;> exact Except.noConfusion h
  | succ f ih =>
    obtain ⟨ihV, ihA, ihO⟩ := ih
    refine ⟨?_, ?_, ?_⟩
    · intro l v r h
      cases l with
      | nil => exact Except.noConfusion h
      | cons c rest =>
        rw [parseValue] at h
        by_cases hq : (c == '"') = true
        · rw [if_pos hq] at h
          cases hps : parseStringBody rest with
          | error err => rw [hps] at h; exact Except.noConfusion h
          | ok pr =>
            obtain ⟨s, r1⟩ := pr
            rw [hps] at h
            simp only at h
            injection h with h1
            injection h1 with hv hr
            subst hr
            obtain ⟨hdec, -⟩ := parseStringBody_shape hps
            refine ⟨'"' :: (s ++ ['"']), ?_, by simp, ?_, ?_, ?_⟩
            · rw [eq_of_beq hq, hdec]
              simp [List.append_assoc]
            · rfl
            · rw [List.getLastD_cons, getLastD_concat]
              decide
            · intro f' hf'
              cases f' with
              | zero => exact absurd hf' (by omega)
              | succ g =>
                rw [parseValue, if_pos hq, hps]
                rw [← hv]
        · rw [if_neg hq] at h
          by_cases hbrace : (c == '{') = true
          · rw [if_pos hbrace] at h
            by_cases hclose : ((skipWs rest).headD ' ' == '}') = true
            · rw [if_pos hclose] at h
              injection h with h1
              injection h1 with hv hr
              have hne : skipWs rest ≠ [] := by
                intro hnil
                rw [hnil] at hclose
                exact absurd hclose (by decide)
              have hform : skipWs rest = '}' :: (skipWs rest).tail := by
                cases hsw : skipWs rest with
                | nil => exact absurd hsw hne
                | cons d t =>
                  rw [hsw] at hclose
                  simp only [List.headD_cons] at hclose
                  rw [eq_of_beq hclose]
                  rfl
              refine ⟨c :: (rest.takeWhile isJsonWs ++ ['}']), ?_, by simp, ?_, ?_, ?_⟩
              · rw [← hr]
                conv_lhs => rw [show (c :: rest : Str) = c :: rest from rfl,
                  skipWs_decompose rest]
                rw [show rest.takeWhile isJsonWs ++ skipWs rest
                    = rest.takeWhile isJsonWs ++ ('}' :: (skipWs rest).tail) by rw [← hform]]
                simp [List.append_assoc]
              · simp only [List.headD_cons]
                rw [eq_of_beq hbrace]
                decide
              · rw [List.getLastD_cons, getLastD_concat]
                decide
              · intro f' hf'
                cases f' with
                | zero => exact absurd hf' (by omega)
                | succ g =>
                  rw [parseValue, if_neg hq, if_pos hbrace, if_pos hclose, ← hv, ← hr]
            · rw [if_neg hclose] at h
              cases ho : parseObjLoop f (skipWs rest) with
              | error err => rw [ho] at h; exact Except.noConfusion h
              | ok pr =>
                obtain ⟨kvs, r2⟩ := pr
                rw [ho] at h
                simp only at h
                injection h with h1
                injection h1 with hv hr
                subst hr
                obtain ⟨q, hqdec, hqne, hqhead, hqlast, hqfuel⟩ :=
                  ihO (skipWs rest) kvs r2 ho
                refine ⟨c :: (rest.takeWhile isJsonWs ++ q), ?_, by simp, ?_, ?_, ?_⟩
                · conv_lhs => rw [show (c :: rest : Str) = c :: rest from rfl,
                    skipWs_decompose rest]
                  rw [show rest.takeWhile isJsonWs ++ skipWs rest
                      = rest.takeWhile isJsonWs ++ (q ++ r2) by rw [← hqdec]]
                  simp [List.append_assoc]
                · simp only [List.headD_cons]
                  rw [eq_of_beq hbrace]
                  decide
                · rw [List.getLastD_cons, getLastD_append_right _ c hqne]
                  rw [getLastD_irrel hqne c ' ']
                  exact hqlast
                · intro f' hf'
                  cases f' with
                  | zero => exact absurd hf' (by omega)
                  | succ g =>
                    simp only [List.length_cons, List.length_append] at hf'
                    rw [parseValue, if_neg hq, if_pos hbrace, if_neg hclose,
                      hqfuel g (by omega)]
                    rw [← hv]
          · rw [if_neg hbrace] at h
            by_cases hbrack : (c == '[') = true
            · rw [if_pos hbrack] at h
              by_cases hclose : ((skipWs rest).headD ' ' == ']') = true
              · rw [if_pos hclose] at h
                injection h with h1
                injection h1 with hv hr
                have hne : skipWs rest ≠ [] := by
                  intro hnil
                  rw [hnil] at hclose
                  exact absurd hclose (by decide)
                have hform : skipWs rest = ']' :: (skipWs rest).tail := by
                  cases hsw : skipWs rest with
                  | nil => exact absurd hsw hne
                  | cons d t =>
                    rw [hsw] at hclose
                    simp only [List.headD_cons] at hclose
                    rw [eq_of_beq hclose]
                    rfl
                refine ⟨c :: (rest.takeWhile isJsonWs ++ [']']), ?_, by simp, ?_, ?_, ?_⟩
                · rw [← hr]
                  conv_lhs => rw [show (c :: rest : Str) = c :: rest from rfl,
                    skipWs_decompose rest]
                  rw [show rest.takeWhile isJsonWs ++ skipWs rest
                      = rest.takeWhile isJsonWs ++ (']' :: (skipWs rest).tail) by rw [← hform]]
                  simp [List.append_assoc]
                · simp only [List.headD_cons]
                  rw [eq_of_beq hbrack]
                  decide
                · rw [List.getLastD_cons, getLastD_concat]
                  decide
                · intro f' hf'
                  cases f' with
                  | zero => exact absurd hf' (by omega)
                  | succ g =>
                    rw [parseValue, if_neg hq, if_neg hbrace, if_pos hbrack,
                      if_pos hclose, ← hv, ← hr]
              · rw [if_neg hclose] at h
                cases ha : parseArrLoop f (skipWs rest) with
                | error err => rw [ha] at h; exact Except.noConfusion h
                | ok pr =>
                  obtain ⟨vs, r2⟩ := pr
                  rw [ha] at h
                  simp only at h
                  injection h with h1
                  injection h1 with hv hr
                  subst hr
                  obtain ⟨q, hqdec, hqne, hqhead, hqlast, hqfuel⟩ :=
                    ihA (skipWs rest) vs r2 ha
                  refine ⟨c :: (rest.takeWhile isJsonWs ++ q), ?_, by simp, ?_, ?_, ?_⟩
                  · conv_lhs => rw [show (c :: rest : Str) = c :: rest from rfl,
                      skipWs_decompose rest]
                    rw [show rest.takeWhile isJsonWs ++ skipWs rest
                        = rest.takeWhile isJsonWs ++ (q ++ r2) by rw [← hqdec]]
                    simp [List.append_assoc]
                  · simp only [List.headD_cons]
                    rw [eq_of_beq hbrack]
                    decide
                  · rw [List.getLastD_cons, getLastD_append_right _ c hqne]
                    rw [getLastD_irrel hqne c ' ']
                    exact hqlast
                  · intro f' hf'
                    cases f' with
                    | zero => exact absurd hf' (by omega)
                    | succ g =>
                      simp only [List.length_cons, List.length_append] at hf'
                      rw [parseValue, if_neg hq, if_neg hbrace, if_pos hbrack,
                        if_neg hclose, hqfuel g (by omega)]
                      rw [← hv]
            · rw [if_neg hbrack] at h
              by_cases hnull : ("null".toList.isPrefixOf (c :: rest)) = true
              · rw [if_pos hnull] at h
                injection h with h1
                injection h1 with hv hr
                have hdec : (c :: rest : Str) = "null".toList ++ (c :: rest).drop 4 :=
                  isPrefixOf_eq_append hnull
                refine ⟨"null".toList, ?_, by decide, by decide, by decide, ?_⟩
                · rw [← hr]
                  exact hdec
                · intro f' hf'
                  cases f' with
                  | zero => exact absurd hf' (by omega)
                  | succ g =>
                    rw [parseValue, if_neg hq, if_neg hbrace, if_neg hbrack,
                      if_pos hnull, ← hv, ← hr]
              · rw [if_neg hnull] at h
                by_cases htrue : ("true".toList.isPrefixOf (c :: rest)) = true
                · rw [if_pos htrue] at h
                  injection h with h1
                  injection h1 with hv hr
                  have hdec : (c :: rest : Str) = "true".toList ++ (c :: rest).drop 4 :=
                    isPrefixOf_eq_append htrue
                  refine ⟨"true".toList, ?_, by decide, by decide, by decide, ?_⟩
                  · rw [← hr]
                    exact hdec
                  · intro f' hf'
                    cases f' with
                    | zero => exact absurd hf' (by omega)
                    | succ g =>
                      rw [parseValue, if_neg hq, if_neg hbrace, if_neg hbrack,
                        if_neg hnull, if_pos htrue, ← hv, ← hr]
                · rw [if_neg htrue] at h
                  by_cases hfalse : ("false".toList.isPrefixOf (c :: rest)) = true
                  · rw [if_pos hfalse] at h
                    injection h with h1
                    injection h1 with hv hr
                    have hdec : (c :: rest : Str)
                        = "false".toList ++ (c :: rest).drop 5 :=
                      isPrefixOf_eq_append hfalse
                    refine ⟨"false".toList, ?_, by decide, by decide, by decide, ?_⟩
                    · rw [← hr]
                      exact hdec
                    · intro f' hf'
                      cases f' with
                      | zero => exact absurd hf' (by omega)
                      | succ g =>
                        rw [parseValue, if_neg hq, if_neg hbrace, if_neg hbrack,
                          if_neg hnull, if_neg htrue, if_pos hfalse, ← hv, ← hr]
                  · rw [if_neg hfalse] at h
                    cases hn : parseNumber (c :: rest) with
                    | some pr =>
                      obtain ⟨lex, r1⟩ := pr
                      rw [hn] at h
                      simp only at h
                      injection h with h1
                      injection h1 with hv hr
                      subst hr
                      obtain ⟨hd1, hd2, hd3, hd4⟩ := parseNumber_shape hn
                      refine ⟨lex, hd1, hd2, hd3, hd4, ?_⟩
                      intro f' hf'
                      cases f' with
                      | zero => exact absurd hf' (by omega)
                      | succ g =>
                        rw [parseValue, if_neg hq, if_neg hbrace, if_neg hbrack,
                          if_neg hnull, if_neg htrue, if_neg hfalse, hn, ← hv]
                    | none =>
                      rw [hn] at h
                      simp only at h
                      by_cases hNaN : ("NaN".toList.isPrefixOf (c :: rest)) = true
                      · rw [if_pos hNaN] at h
                        injection h with h1
                        injection h1 with hv hr
                        have hdec : (c :: rest : Str)
                            = "NaN".toList ++ (c :: rest).drop 3 :=
                          isPrefixOf_eq_append hNaN
                        refine ⟨"NaN".toList, ?_, by decide, by decide, by decide, ?_⟩
                        · rw [← hr]
                          exact hdec
                        · intro f' hf'
                          cases f' with
                          | zero => exact absurd hf' (by omega)
                          | succ g =>
                            rw [parseValue, if_neg hq, if_neg hbrace, if_neg hbrack,
                              if_neg hnull, if_neg htrue, if_neg hfalse, hn,
                              if_pos hNaN, ← hv, ← hr]
                      · rw [if_neg hNaN] at h
                        by_cases hInf : ("Infinity".toList.isPrefixOf (c :: rest)) = true
                        · rw [if_pos hInf] at h
                          injection h with h1
                          injection h1 with hv hr
                          have hdec : (c :: rest : Str)
                              = "Infinity".toList ++ (c :: rest).drop 8 :=
                            isPrefixOf_eq_append hInf
                          refine ⟨"Infinity".toList, ?_, by decide, by decide,
                            by decide, ?_⟩
                          · rw [← hr]
                            exact hdec
                          · intro f' hf'
                            cases f' with
                            | zero => exact absurd hf' (by omega)
                            | succ g =>
                              rw [parseValue, if_neg hq, if_neg hbrace, if_neg hbrack,
                                if_neg hnull, if_neg htrue, if_neg hfalse, hn,
                                if_neg hNaN, if_pos hInf, ← hv, ← hr]
                        · rw [if_neg hInf] at h
                          by_cases hmInf :
                              ("-Infinity".toList.isPrefixOf (c :: rest)) = true
                          · rw [if_pos hmInf] at h
                            injection h with h1
                            injection h1 with hv hr
                            have hdec : (c :: rest : Str)
                                = "-Infinity".toList ++ (c :: rest).drop 9 :=
                              isPrefixOf_eq_append hmInf
                            refine ⟨"-Infinity".toList, ?_, by decide, by decide,
                              by decide, ?_⟩
                            · rw [← hr]
                              exact hdec
                            · intro f' hf'
                              cases f' with
                              | zero => exact absurd hf' (by omega)
                              | succ g =>
                                rw [parseValue, if_neg hq, if_neg hbrace,
                                  if_neg hbrack, if_neg hnull, if_neg htrue,
                                  if_neg hfalse, hn, if_neg hNaN, if_neg hInf,
                                  if_pos hmInf, ← hv, ← hr]
                          · rw [if_neg hmInf] at h
                            exact Except.noConfusion h
    · intro l vs r h
      rw [parseArrLoop] at h
      cases hv1 : parseValue f l with
      | error err => rw [hv1] at h; exact Except.noConfusion h
      | ok pr =>
        obtain ⟨v1, r1⟩ := pr
        rw [hv1] at h
        simp only at h
        obtain ⟨p1, hp1dec, hp1ne, hp1head, hp1last, hp1fuel⟩ := ihV l v1 r1 hv1
        by_cases hcl : ((skipWs r1).headD ' ' == ']') = true
        · rw [if_pos hcl] at h
          injection h with h1
          injection h1 with hvs hr
          have hne : skipWs r1 ≠ [] := by
            intro hnil
            rw [hnil] at hcl
            exact absurd hcl (by decide)
          have hform : skipWs r1 = ']' :: (skipWs r1).tail := by
            cases hsw : skipWs r1 with
            | nil => exact absurd hsw hne
            | cons d t =>
              rw [hsw] at hcl
              simp only [List.headD_cons] at hcl
              rw [eq_of_beq hcl]
              rfl
          refine ⟨p1 ++ (r1.takeWhile isJsonWs ++ [']']), ?_,
            append_ne_nil_left _ hp1ne, ?_, ?_, ?_⟩
          · rw [← hr, hp1dec]
            conv_lhs => rw [skipWs_decompose r1, hform]
            simp [List.append_assoc]
          · rw [headD_append_left _ ' ' hp1ne]
            exact hp1head
          · rw [getLastD_append_right p1 ' ' (by simp), getLastD_concat]
            decide
          · intro f' hf'
            cases f' with
            | zero => exact absurd hf' (by omega)
            | succ g =>
              simp only [List.length_append, List.length_cons] at hf'
              rw [parseArrLoop, hp1fuel g (by omega)]
              simp only
              rw [if_pos hcl, ← hvs, ← hr]
        · by_cases hcm : ((skipWs r1).headD ' ' == ',') = true
          · rw [if_neg hcl, if_pos hcm] at h
            cases ha : parseArrLoop f (skipWs (skipWs r1).tail) with
            | error err => rw [ha] at h; exact Except.noConfusion h
            | ok pr2 =>
              obtain ⟨vs2, r3⟩ := pr2
              rw [ha] at h
              simp only at h
              injection h with h1
              injection h1 with hvs hr
              subst hr
              obtain ⟨q, hqdec, hqne, hqhead, hqlast, hqfuel⟩ :=
                ihA (skipWs (skipWs r1).tail) vs2 r3 ha
              have hne : skipWs r1 ≠ [] := by
                intro hnil
                rw [hnil] at hcm
                exact absurd hcm (by decide)
              have hform : skipWs r1 = ',' :: (skipWs r1).tail := by
                cases hsw : skipWs r1 with
                | nil => exact absurd hsw hne
                | cons d t =>
                  rw [hsw] at hcm
                  simp only [List.headD_cons] at hcm
                  rw [eq_of_beq hcm]
                  rfl
              refine ⟨p1 ++ (r1.takeWhile isJsonWs
                  ++ (',' :: ((skipWs r1).tail.takeWhile isJsonWs ++ q))), ?_,
                append_ne_nil_left _ hp1ne, ?_, ?_, ?_⟩
              · rw [hp1dec]
                conv_lhs => rw [skipWs_decompose r1, hform,
                  skipWs_decompose (skipWs r1).tail, hqdec]
                simp [List.append_assoc]
              · rw [headD_append_left _ ' ' hp1ne]
                exact hp1head
              · rw [getLastD_append_right p1 ' ' (by simp),
                  getLastD_append_right _ ' ' (by simp), List.getLastD_cons,
                  getLastD_append_right _ ',' hqne, getLastD_irrel hqne ',' ' ']
                exact hqlast
              · intro f' hf'
                cases f' with
                | zero => exact absurd hf' (by omega)
                | succ g =>
                  simp only [List.length_append, List.length_cons] at hf'
                  rw [parseArrLoop, hp1fuel g (by omega)]
                  simp only
                  rw [if_neg hcl, if_pos hcm, hqfuel g (by omega), ← hvs]
          · rw [if_neg hcl, if_neg hcm] at h
            exact Except.noConfusion h
    · intro l kvs r h
      rw [parseObjLoop] at h
      by_cases hkq : (l.headD ' ' == '"') = true
      · rw [if_pos hkq] at h
        cases hks : parseStringBody l.tail with
        | error err => rw [hks] at h; exact Except.noConfusion h
        | ok pr =>
          obtain ⟨k, r1⟩ := pr
          rw [hks] at h
          simp only at h
          obtain ⟨hkdec, -⟩ := parseStringBody_shape hks
          have hlne : l ≠ [] := by
            intro hnil
            rw [hnil] at hkq
            exact absurd hkq (by decide)
          have hlform : l = '"' :: l.tail := by
            cases l with
            | nil => exact absurd rfl hlne
            | cons a t =>
              simp only [List.headD_cons] at hkq
              rw [List.tail_cons, eq_of_beq hkq]
          by_cases hcolon : ((skipWs r1).headD ' ' == ':') = true
          · rw [if_pos hcolon] at h
            have hne1 : skipWs r1 ≠ [] := by
              intro hnil
              rw [hnil] at hcolon
              exact absurd hcolon (by decide)
            have hform1 : skipWs r1 = ':' :: (skipWs r1).tail := by
              cases hsw : skipWs r1 with
              | nil => exact absurd hsw hne1
              | cons d t =>
                rw [hsw] at hcolon
                simp only [List.headD_cons] at hcolon
                rw [eq_of_beq hcolon]
                rfl
            cases hv2 : parseValue f (skipWs (skipWs r1).tail) with
            | error err => rw [hv2] at h; exact Except.noConfusion h
            | ok pr2 =>
              obtain ⟨v, r3⟩ := pr2
              rw [hv2] at h
              simp only at h
              obtain ⟨pv, hpvdec, hpvne, hpvhead, hpvlast, hpvfuel⟩ :=
                ihV (skipWs (skipWs r1).tail) v r3 hv2
              by_cases hcl2 : ((skipWs r3).headD ' ' == '}') = true
              · rw [if_pos hcl2] at h
                injection h with h1
                injection h1 with hkvs hr
                have hne2 : skipWs r3 ≠ [] := by
                  intro hnil
                  rw [hnil] at hcl2
                  exact absurd hcl2 (by decide)
                have hform2 : skipWs r3 = '}' :: (skipWs r3).tail := by
                  cases hsw : skipWs r3 with
                  | nil => exact absurd hsw hne2
                  | cons d t =>
                    rw [hsw] at hcl2
                    simp only [List.headD_cons] at hcl2
                    rw [eq_of_beq hcl2]
                    rfl
                refine ⟨('"' :: (k ++ ('"' :: (r1.takeWhile isJsonWs
                    ++ (':' :: ((skipWs r1).tail.takeWhile isJsonWs
                      ++ (pv ++ r3.takeWhile isJsonWs))))))) ++ ['}'], ?_,
                  append_ne_nil_right _ (by simp), ?_, ?_, ?_⟩
                · rw [← hr]
                  conv_lhs => rw [hlform, hkdec, skipWs_decompose r1, hform1,
                    skipWs_decompose (skipWs r1).tail, hpvdec,
                    skipWs_decompose r3, hform2]
                  simp [List.append_assoc]
                · rw [headD_append_left _ ' ' (by simp)]
                  rfl
                · rw [getLastD_concat]
                  decide
                · intro f' hf'
                  cases f' with
                  | zero => exact absurd hf' (by omega)
                  | succ g =>
                    simp only [List.length_append, List.length_cons] at hf'
                    rw [parseObjLoop, if_pos hkq, hks]
                    simp only
                    rw [if_pos hcolon, hpvfuel g (by omega)]
                    simp only
                    rw [if_pos hcl2, ← hkvs, ← hr]
              · by_cases hcm2 : ((skipWs r3).headD ' ' == ',') = true
                · rw [if_neg hcl2, if_pos hcm2] at h
                  cases ho2 : parseObjLoop f (skipWs (skipWs r3).tail) with
                  | error err => rw [ho2] at h; exact Except.noConfusion h
                  | ok pr3 =>
                    obtain ⟨kvs2, r6⟩ := pr3
                    rw [ho2] at h
                    simp only at h
                    injection h with h1
                    injection h1 with hkvs hr
                    subst hr
                    obtain ⟨q, hqdec, hqne, hqhead, hqlast, hqfuel⟩ :=
                      ihO (skipWs (skipWs r3).tail) kvs2 r6 ho2
                    have hne2 : skipWs r3 ≠ [] := by
                      intro hnil
                      rw [hnil] at hcm2
                      exact absurd hcm2 (by decide)
                    have hform2 : skipWs r3 = ',' :: (skipWs r3).tail := by
                      cases hsw : skipWs r3 with
                      | nil => exact absurd hsw hne2
                      | cons d t =>
                        rw [hsw] at hcm2
                        simp only [List.headD_cons] at hcm2
                        rw [eq_of_beq hcm2]
                        rfl
                    refine ⟨('"' :: (k ++ ('"' :: (r1.takeWhile isJsonWs
                        ++ (':' :: ((skipWs r1).tail.takeWhile isJsonWs
                          ++ (pv ++ (r3.takeWhile isJsonWs
                            ++ (',' :: (skipWs r3).tail.takeWhile isJsonWs))))))))) ++ q,
                      ?_, append_ne_nil_right _ hqne, ?_, ?_, ?_⟩
                    · conv_lhs => rw [hlform, hkdec, skipWs_decompose r1, hform1,
                        skipWs_decompose (skipWs r1).tail, hpvdec,
                        skipWs_decompose r3, hform2,
                        skipWs_decompose (skipWs r3).tail, hqdec]
                      simp [List.append_assoc]
                    · rw [headD_append_left _ ' ' (by simp)]
                      rfl
                    · rw [getLastD_append_right _ ' ' hqne]
                      exact hqlast
                    · intro f' hf'
                      cases f' with
                      | zero => exact absurd hf' (by omega)
                      | succ g =>
                        simp only [List.length_append, List.length_cons] at hf'
                        rw [parseObjLoop, if_pos hkq, hks]
                        simp only
                        rw [if_pos hcolon, hpvfuel g (by omega)]
                        simp only
                        rw [if_neg hcl2, if_pos hcm2, hqfuel g (by omega), ← hkvs]
                · rw [if_neg hcl2, if_neg hcm2] at h
                  exact Except.noConfusion h
          · rw [if_neg hcolon] at h
            exact Except.noConfusion h
      · rw [if_neg hkq] at h
        exact Except.noConfusion h

-- ============================================================
-- Trailing-whitespace truncation of the JSON value parser
-- ============================================================

theorem jsonWs_beq_false {cw x : Char} (hws : isJsonWs cw = true)
    (hx : isJsonWs x = false) : (cw == x) = false := by
  simp only [beq_eq_false_iff_ne]
  intro heq
  subst heq
  rw [hws] at hx
  exact Bool.noConfusion hx

theorem isPrefixOf_length_le {k l : Str} (h : k.isPrefixOf l = true) :
    k.length ≤ l.length := by
  rw [List.isPrefixOf_iff_prefix] at h
  exact h.length_le

theorem isPrefixOf_cons_false {k0 cw : Char} (k' t : Str) (h : (k0 == cw) = false) :
    ((k0 :: k').isPrefixOf (cw :: t)) = false := by
  simp only [List.isPrefixOf]
  rw [h]
  rfl

theorem nil_isPrefixOf (l : Str) : (([] : Str).isPrefixOf l) = true := by
  cases l <;> rfl

/-- Appending all-whitespace text does not change whether a non-whitespace
token is a prefix. -/
theorem isPrefixOf_append_ws {k w : Str} (hk : ∀ c ∈ k, isJsonWs c = false)
    (hw : ∀ c ∈ w, isJsonWs c = true) :
    ∀ x : Str, (k.isPrefixOf (x ++ w)) = (k.isPrefixOf x) := by
  induction k with
  | nil => intro x; rw [nil_isPrefixOf, nil_isPrefixOf]
  | cons k0 k' ih =>
    intro x
    cases x with
    | nil =>
      rw [List.nil_append]
      cases w with
      | nil => rfl
      | cons cw w' =>
        have hne : (k0 == cw) = false := by
          simp only [beq_eq_false_iff_ne]
          intro heq
          have h1 := hk k0 (List.mem_cons_self _ _)
          have h2 := hw cw (List.mem_cons_self _ _)
          rw [heq, h2] at h1
          exact Bool.noConfusion h1
        rw [isPrefixOf_cons_false k' w' hne]
        rfl
    | cons b x' =>
      rw [List.cons_append]
      simp only [List.isPrefixOf]
      rw [ih (fun c hc => hk c (List.mem_cons_of_mem k0 hc)) x']

theorem beq_false_of_ws_right {x cw : Char} (hws : isJsonWs cw = true)
    (hx : isJsonWs x = false) : (x == cw) = false := by
  simp only [beq_eq_false_iff_ne]
  intro heq
  rw [← heq] at hws
  rw [hws] at hx
  exact Bool.noConfusion hx

theorem ws_head_no_token_prefixOf {cw : Char} (hws : isJsonWs cw = true) (k0 : Char)
    (hk0 : isJsonWs k0 = false) (k' t : Str) :
    ((k0 :: k').isPrefixOf (cw :: t)) = false :=
  isPrefixOf_cons_false k' t (beq_false_of_ws_right hws hk0)

/-- Truncating trailing whitespace: a parse of input followed by
all-whitespace trailing text whose rest retains that trailing text succeeds
identically without it. -/
theorem parse_truncate :
    ∀ (f : Nat) (w : Str), (∀ c ∈ w, isJsonWs c = true) →
      (∀ l v r, parseValue f (l ++ w) = .ok (v, r ++ w) →
        parseValue f l = .ok (v, r))
      ∧ (∀ l vs r, parseArrLoop f (l ++ w) = .ok (vs, r ++ w) →
        parseArrLoop f l = .ok (vs, r))
      ∧ (∀ l kvs r, parseObjLoop f (l ++ w) = .ok (kvs, r ++ w) →
        parseObjLoop f l = .ok (kvs, r)) := by
  intro f
  induction f with
  | zero =>
    intro w hw
    refine ⟨?_, ?_, ?_⟩ <;> intro l a r h <;> exact Except.noConfusion h
  | succ f ih =>
    intro w hw
    obtain ⟨ihV, ihA, ihO⟩ := ih w hw
    refine ⟨?_, ?_, ?_⟩
    · intro l v r h
      cases l with
      | nil =>
        exfalso
        rw [List.nil_append] at h
        cases hwc : w with
        | nil =>
          rw [hwc] at h
          exact Except.noConfusion h
        | cons cw w' =>
          rw [hwc] at h
          rw [parseValue] at h
          have hws : isJsonWs cw = true := by
            rw [hwc] at hw
            exact hw cw (List.mem_cons_self _ _)
          have hpn : parseNumber (cw :: w') = none := by
            have h0 := parseNumber_ws hw []
            rw [List.nil_append] at h0
            rw [← hwc, h0]
            rfl
          simp only [show ("null".toList : Str) = ['n', 'u', 'l', 'l'] from rfl,
            show ("true".toList : Str) = ['t', 'r', 'u', 'e'] from rfl,
            show ("false".toList : Str) = ['f', 'a', 'l', 's', 'e'] from rfl,
            show ("NaN".toList : Str) = ['N', 'a', 'N'] from rfl,
            show ("Infinity".toList : Str)
              = ['I', 'n', 'f', 'i', 'n', 'i', 't', 'y'] from rfl,
            show ("-Infinity".toList : Str)
              = ['-', 'I', 'n', 'f', 'i', 'n', 'i', 't', 'y'] from rfl] at h
          rw [if_neg (by simp [jsonWs_beq_false (x := '"') hws (by decide)]),
            if_neg (by simp [jsonWs_beq_false (x := '{') hws (by decide)]),
            if_neg (by simp [jsonWs_beq_false (x := '[') hws (by decide)]),
            if_neg (by
              simp [ws_head_no_token_prefixOf hws 'n' (by decide) ['u', 'l', 'l'] w']),
            if_neg (by
              simp [ws_head_no_token_prefixOf hws 't' (by decide) ['r', 'u', 'e'] w']),
            if_neg (by
              simp [ws_head_no_token_prefixOf hws 'f' (by decide)
                ['a', 'l', 's', 'e'] w']), hpn,
            if_neg (by
              simp [ws_head_no_token_prefixOf hws 'N' (by decide) ['a', 'N'] w']),
            if_neg (by
              simp [ws_head_no_token_prefixOf hws 'I' (by decide)
                ['n', 'f', 'i', 'n', 'i', 't', 'y'] w']),
            if_neg (by
              simp [ws_head_no_token_prefixOf hws '-' (by decide)
                ['I', 'n', 'f', 'i', 'n', 'i', 't', 'y'] w'])] at h
          exact Except.noConfusion h
      | cons c rest =>
        rw [List.cons_append] at h
        rw [parseValue] at h
        rw [parseValue]
        by_cases hq : (c == '"') = true
        · rw [if_pos hq] at h ⊢
          cases hps : parseStringBody (rest ++ w) with
          | error err => rw [hps] at h; exact Except.noConfusion h
          | ok pr =>
            obtain ⟨s, r1⟩ := pr
            rw [hps] at h
            simp only at h
            injection h with h1
            injection h1 with hv hr1
            obtain ⟨hdec, hreplay⟩ := parseStringBody_shape hps
            rw [hr1] at hdec
            have hdec2 : rest ++ w = (s ++ '"' :: r) ++ w := by
              rw [hdec]
              simp [List.append_assoc]
            have hrest : rest = s ++ '"' :: r := List.append_cancel_right hdec2
            rw [hrest, hreplay r, ← hv]
        · rw [if_neg hq] at h ⊢
          by_cases hbrace : (c == '{') = true
          · rw [if_pos hbrace] at h ⊢
            cases hsw : skipWs rest with
            | nil =>
              exfalso
              have hnil2 : skipWs (rest ++ w) = [] := by
                apply skipWs_nil_of_all
                intro ch hch
                rcases List.mem_append.mp hch with hm | hm
                · exact all_of_skipWs_nil hsw ch hm
                · exact hw ch hm
              rw [hnil2, if_neg (by decide)] at h
              cases f with
              | zero => exact Except.noConfusion h
              | succ f2 => exact Except.noConfusion h
            | cons d t =>
              have hswa : skipWs (rest ++ w) = d :: (t ++ w) := skipWs_append_cons hsw
              rw [hswa] at h
              simp only [List.headD_cons, List.tail_cons] at h ⊢
              by_cases hd : (d == '}') = true
              · rw [if_pos hd] at h ⊢
                injection h with h1
                injection h1 with hv hr1
                have ht : t = r := List.append_cancel_right hr1
                rw [← hv, ht]
              · rw [if_neg hd] at h ⊢
                cases ho : parseObjLoop f (d :: (t ++ w)) with
                | error err => rw [ho] at h; exact Except.noConfusion h
                | ok pr =>
                  obtain ⟨kvs, r2⟩ := pr
                  rw [ho] at h
                  simp only at h
                  injection h with h1
                  injection h1 with hv hr2
                  have ho' : parseObjLoop f ((d :: t) ++ w) = .ok (kvs, r ++ w) := by
                    rw [List.cons_append, ho, hr2]
                  rw [ihO (d :: t) kvs r ho', ← hv]
          · rw [if_neg hbrace] at h ⊢
            by_cases hbrack : (c == '[') = true
            · rw [if_pos hbrack] at h ⊢
              cases hsw : skipWs rest with
              | nil =>
                exfalso
                have hnil2 : skipWs (rest ++ w) = [] := by
                  apply skipWs_nil_of_all
                  intro ch hch
                  rcases List.mem_append.mp hch with hm | hm
                  · exact all_of_skipWs_nil hsw ch hm
                  · exact hw ch hm
                rw [hnil2, if_neg (by decide)] at h
                cases f with
                | zero => exact Except.noConfusion h
                | succ f2 =>
                  cases f2 with
                  | zero => exact Except.noConfusion h
                  | succ g => exact Except.noConfusion h
              | cons d t =>
                have hswa : skipWs (rest ++ w) = d :: (t ++ w) := skipWs_append_cons hsw
                rw [hswa] at h
                simp only [List.headD_cons, List.tail_cons] at h ⊢
                by_cases hd : (d == ']') = true
                · rw [if_pos hd] at h ⊢
                  injection h with h1
                  injection h1 with hv hr1
                  have ht : t = r := List.append_cancel_right hr1
                  rw [← hv, ht]
                · rw [if_neg hd] at h ⊢
                  cases ha : parseArrLoop f (d :: (t ++ w)) with
                  | error err => rw [ha] at h; exact Except.noConfusion h
                  | ok pr =>
                    obtain ⟨vs, r2⟩ := pr
                    rw [ha] at h
                    simp only at h
                    injection h with h1
                    injection h1 with hv hr2
                    have ha' : parseArrLoop f ((d :: t) ++ w) = .ok (vs, r ++ w) := by
                      rw [List.cons_append, ha, hr2]
                    rw [ihA (d :: t) vs r ha', ← hv]
            · rw [if_neg hbrack] at h ⊢
              have hstr : ∀ k : Str, (∀ ch ∈ k, isJsonWs ch = false) →
                  (k.isPrefixOf (c :: (rest ++ w))) = (k.isPrefixOf (c :: rest)) := by
                intro k hk
                have := isPrefixOf_append_ws hk hw (c :: rest)
                rwa [List.cons_append] at this
              rw [hstr "null".toList (by decide)] at h
              by_cases hnull : ("null".toList.isPrefixOf (c :: rest)) = true
              · rw [if_pos hnull] at h ⊢
                have hlen : ("null".toList : Str).length ≤ (c :: rest).length :=
                  isPrefixOf_length_le hnull
                have hdrop : (c :: (rest ++ w)).drop 4 = (c :: rest).drop 4 ++ w := by
                  rw [show (c :: (rest ++ w) : Str) = (c :: rest) ++ w from rfl]
                  exact List.drop_append_of_le_length hlen
                rw [hdrop] at h
                injection h with h1
                injection h1 with hv hr1
                have hc2 := List.append_cancel_right hr1
                rw [← hv, hc2]
              · rw [if_neg hnull] at h ⊢
                rw [hstr "true".toList (by decide)] at h
                by_cases htrue : ("true".toList.isPrefixOf (c :: rest)) = true
                · rw [if_pos htrue] at h ⊢
                  have hlen : ("true".toList : Str).length ≤ (c :: rest).length :=
                    isPrefixOf_length_le htrue
                  have hdrop : (c :: (rest ++ w)).drop 4 = (c :: rest).drop 4 ++ w := by
                    rw [show (c :: (rest ++ w) : Str) = (c :: rest) ++ w from rfl]
                    exact List.drop_append_of_le_length hlen
                  rw [hdrop] at h
                  injection h with h1
                  injection h1 with hv hr1
                  have hc2 := List.append_cancel_right hr1
                  rw [← hv, hc2]
                · rw [if_neg htrue] at h ⊢
                  rw [hstr "false".toList (by decide)] at h
                  by_cases hfalse : ("false".toList.isPrefixOf (c :: rest)) = true
                  · rw [if_pos hfalse] at h ⊢
                    have hlen : ("false".toList : Str).length ≤ (c :: rest).length :=
                      isPrefixOf_length_le hfalse
                    have hdrop : (c :: (rest ++ w)).drop 5 = (c :: rest).drop 5 ++ w := by
                      rw [show (c :: (rest ++ w) : Str) = (c :: rest) ++ w from rfl]
                      exact List.drop_append_of_le_length hlen
                    rw [hdrop] at h
                    injection h with h1
                    injection h1 with hv hr1
                    have hc2 := List.append_cancel_right hr1
                    rw [← hv, hc2]
                  · rw [if_neg hfalse] at h ⊢
                    have hnw : parseNumber (c :: (rest ++ w))
                        = (parseNumber (c :: rest)).map (fun p => (p.1, p.2 ++ w)) := by
                      have := parseNumber_ws hw (c :: rest)
                      rwa [List.cons_append] at this
                    rw [hnw] at h
                    cases hn : parseNumber (c :: rest) with
                    | some pr =>
                      obtain ⟨lex, r1⟩ := pr
                      rw [hn] at h
                      simp only [Option.map_some'] at h
                      injection h with h1
                      injection h1 with hv hr1
                      have hc2 := List.append_cancel_right hr1
                      simp only
                      rw [← hv, hc2]
                    | none =>
                      rw [hn] at h
                      simp only [Option.map_none'] at h
                      simp only at h ⊢
                      rw [hstr "NaN".toList (by decide)] at h
                      by_cases hNaN : ("NaN".toList.isPrefixOf (c :: rest)) = true
                      · rw [if_pos hNaN] at h ⊢
                        have hlen : ("NaN".toList : Str).length ≤ (c :: rest).length :=
                          isPrefixOf_length_le hNaN
                        have hdrop : (c :: (rest ++ w)).drop 3
                            = (c :: rest).drop 3 ++ w := by
                          rw [show (c :: (rest ++ w) : Str) = (c :: rest) ++ w from rfl]
                          exact List.drop_append_of_le_length hlen
                        rw [hdrop] at h
                        injection h with h1
                        injection h1 with hv hr1
                        have hc2 := List.append_cancel_right hr1
                        rw [← hv, hc2]
                      · rw [if_neg hNaN] at h ⊢
                        rw [hstr "Infinity".toList (by decide)] at h
                        by_cases hInf : ("Infinity".toList.isPrefixOf (c :: rest)) = true
                        · rw [if_pos hInf] at h ⊢
                          have hlen :
                              ("Infinity".toList : Str).length ≤ (c :: rest).length :=
                            isPrefixOf_length_le hInf
                          have hdrop : (c :: (rest ++ w)).drop 8
                              = (c :: rest).drop 8 ++ w := by
                            rw [show (c :: (rest ++ w) : Str) = (c :: rest) ++ w from rfl]
                            exact List.drop_append_of_le_length hlen
                          rw [hdrop] at h
                          injection h with h1
                          injection h1 with hv hr1
                          have hc2 := List.append_cancel_right hr1
                          rw [← hv, hc2]
                        · rw [if_neg hInf] at h ⊢
                          rw [hstr "-Infinity".toList (by decide)] at h
                          by_cases hmInf :
                              ("-Infinity".toList.isPrefixOf (c :: rest)) = true
                          · rw [if_pos hmInf] at h ⊢
                            have hlen :
                                ("-Infinity".toList : Str).length
                                  ≤ (c :: rest).length :=
                              isPrefixOf_length_le hmInf
                            have hdrop : (c :: (rest ++ w)).drop 9
                                = (c :: rest).drop 9 ++ w := by
                              rw [show (c :: (rest ++ w) : Str)
                                  = (c :: rest) ++ w from rfl]
                              exact List.drop_append_of_le_length hlen
                            rw [hdrop] at h
                            injection h with h1
                            injection h1 with hv hr1
                            have hc2 := List.append_cancel_right hr1
                            rw [← hv, hc2]
                          · rw [if_neg hmInf] at h
                            exact Except.noConfusion h
    · intro l vs r h
      rw [parseArrLoop] at h
      rw [parseArrLoop]
      cases hv1 : parseValue f (l ++ w) with
      | error err => rw [hv1] at h; exact Except.noConfusion h
      | ok pr =>
        obtain ⟨v, r1⟩ := pr
        rw [hv1] at h
        simp only at h
        obtain ⟨p, hsplit, hpne, hptok, hplast, hfuel⟩ := (parse_shape f).1 _ _ _ hv1
        obtain ⟨s, hls, hr1⟩ := split_consumed hsplit hw hplast
        subst hr1
        have hvl : parseValue f l = .ok (v, s) := ihV l v s hv1
        rw [hvl]
        simp only
        cases hss : skipWs s with
        | nil =>
          exfalso
          have hnil2 : skipWs (s ++ w) = [] := by
            apply skipWs_nil_of_all
            intro ch hch
            rcases List.mem_append.mp hch with hm | hm
            · exact all_of_skipWs_nil hss ch hm
            · exact hw ch hm
          rw [hnil2, if_neg (by decide), if_neg (by decide)] at h
          exact Except.noConfusion h
        | cons d t =>
          have hswa : skipWs (s ++ w) = d :: (t ++ w) := skipWs_append_cons hss
          rw [hswa] at h
          simp only [List.headD_cons, List.tail_cons] at h ⊢
          by_cases hd : (d == ']') = true
          · rw [if_pos hd] at h ⊢
            injection h with h1
            injection h1 with hvs hr2
            have ht : t = r := List.append_cancel_right hr2
            rw [← hvs, ht]
          · rw [if_neg hd] at h ⊢
            by_cases hc : (d == ',') = true
            · rw [if_pos hc] at h ⊢
              cases hst : skipWs t with
              | nil =>
                exfalso
                have hnil2 : skipWs (t ++ w) = [] := by
                  apply skipWs_nil_of_all
                  intro ch hch
                  rcases List.mem_append.mp hch with hm | hm
                  · exact all_of_skipWs_nil hst ch hm
                  · exact hw ch hm
                rw [hnil2] at h
                cases f with
                | zero => exact Except.noConfusion h
                | succ f2 =>
                  cases f2 with
                  | zero => exact Except.noConfusion h
                  | succ g => exact Except.noConfusion h
              | cons d2 t2 =>
                have hswa2 : skipWs (t ++ w) = d2 :: (t2 ++ w) :=
                  skipWs_append_cons hst
                rw [hswa2] at h
                cases ha : parseArrLoop f (d2 :: (t2 ++ w)) with
                | error err => rw [ha] at h; exact Except.noConfusion h
                | ok pr2 =>
                  obtain ⟨vs2, r3⟩ := pr2
                  rw [ha] at h
                  simp only at h
                  injection h with h1
                  injection h1 with hvs hr3
                  have ha' : parseArrLoop f ((d2 :: t2) ++ w) = .ok (vs2, r ++ w) := by
                    rw [List.cons_append, ha, hr3]
                  rw [ihA (d2 :: t2) vs2 r ha', ← hvs]
            · rw [if_neg hc] at h
              exact Except.noConfusion h
    · intro l kvs r h
      cases l with
      | nil =>
        rw [List.nil_append] at h
        cases hwc : w with
        | nil => rw [hwc] at h; exact Except.noConfusion h
        | cons cw w' =>
          rw [hwc] at h
          rw [parseObjLoop] at h
          have hws : isJsonWs cw = true := by
            rw [hwc] at hw
            exact hw cw (List.mem_cons_self _ _)
          simp only [List.headD_cons] at h
          rw [if_neg (by simp [jsonWs_beq_false (x := '"') hws (by decide)])] at h
          exact Except.noConfusion h
      | cons c rest =>
        rw [List.cons_append] at h
        rw [parseObjLoop] at h
        rw [parseObjLoop]
        simp only [List.headD_cons, List.tail_cons] at h ⊢
        by_cases hq : (c == '"') = true
        · rw [if_pos hq] at h ⊢
          cases hps : parseStringBody (rest ++ w) with
          | error err => rw [hps] at h; exact Except.noConfusion h
          | ok pr =>
            obtain ⟨k, r1⟩ := pr
            rw [hps] at h
            simp only at h
            obtain ⟨hdec, hreplay⟩ := parseStringBody_shape hps
            have hdec2 : rest ++ w = (k ++ ['"']) ++ r1 := by
              rw [hdec]
              simp [List.append_assoc]
            have hlast : isPyWs ((k ++ ['"']).getLastD ' ') = false := by
              rw [getLastD_concat]
              decide
            obtain ⟨s, hrs, hr1⟩ := split_consumed hdec2 hw hlast
            subst hr1
            have hrest : rest = k ++ '"' :: s := by
              rw [hrs]
              simp [List.append_assoc]
            rw [hrest, hreplay s]
            simp only
            cases hss : skipWs s with
            | nil =>
              exfalso
              have hnil2 : skipWs (s ++ w) = [] := by
                apply skipWs_nil_of_all
                intro ch hch
                rcases List.mem_append.mp hch with hm | hm
                · exact all_of_skipWs_nil hss ch hm
                · exact hw ch hm
              rw [hnil2, if_neg (by decide)] at h
              exact Except.noConfusion h
            | cons d t =>
              have hswa : skipWs (s ++ w) = d :: (t ++ w) := skipWs_append_cons hss
              rw [hswa] at h
              simp only [List.headD_cons, List.tail_cons] at h ⊢
              by_cases hcol : (d == ':') = true
              · rw [if_pos hcol] at h ⊢
                cases hst : skipWs t with
                | nil =>
                  exfalso
                  have hnil3 : skipWs (t ++ w) = [] := by
                    apply skipWs_nil_of_all
                    intro ch hch
                    rcases List.mem_append.mp hch with hm | hm
                    · exact all_of_skipWs_nil hst ch hm
                    · exact hw ch hm
                  rw [hnil3] at h
                  cases f with
                  | zero => exact Except.noConfusion h
                  | succ f2 => exact Except.noConfusion h
                | cons d2 t2 =>
                  have hswa2 : skipWs (t ++ w) = d2 :: (t2 ++ w) :=
                    skipWs_append_cons hst
                  rw [hswa2] at h
                  cases hv1 : parseValue f (d2 :: (t2 ++ w)) with
                  | error err => rw [hv1] at h; exact Except.noConfusion h
                  | ok pr2 =>
                    obtain ⟨v, r3⟩ := pr2
                    rw [hv1] at h
                    simp only at h
                    obtain ⟨p, hsplit, hpne, hptok, hplast, hfuel⟩ :=
                      (parse_shape f).1 _ _ _ hv1
                    have hsplit2 : (d2 :: t2) ++ w = p ++ r3 := by
                      rw [List.cons_append]
                      exact hsplit
                    obtain ⟨s2, hls2, hr3⟩ := split_consumed hsplit2 hw hplast
                    subst hr3
                    have hvl : parseValue f (d2 :: t2) = .ok (v, s2) := by
                      apply ihV
                      rw [List.cons_append]
                      exact hv1
                    rw [hvl]
                    simp only
                    cases hss2 : skipWs s2 with
                    | nil =>
                      exfalso
                      have hnil4 : skipWs (s2 ++ w) = [] := by
                        apply skipWs_nil_of_all
                        intro ch hch
                        rcases List.mem_append.mp hch with hm | hm
                        · exact all_of_skipWs_nil hss2 ch hm
                        · exact hw ch hm
                      rw [hnil4, if_neg (by decide), if_neg (by decide)] at h
                      exact Except.noConfusion h
                    | cons d3 t3 =>
                      have hswa3 : skipWs (s2 ++ w) = d3 :: (t3 ++ w) :=
                        skipWs_append_cons hss2
                      rw [hswa3] at h
                      simp only [List.headD_cons, List.tail_cons] at h ⊢
                      by_cases hbr : (d3 == '\x7d') = true
                      · rw [if_pos hbr] at h ⊢
                        injection h with h1
                        injection h1 with hkv hr6
                        have ht3 : t3 = r := List.append_cancel_right hr6
                        rw [← hkv, ht3]
                      · rw [if_neg hbr] at h ⊢
                        by_cases hcm : (d3 == ',') = true
                        · rw [if_pos hcm] at h ⊢
                          cases hst3 : skipWs t3 with
                          | nil =>
                            exfalso
                            have hnil5 : skipWs (t3 ++ w) = [] := by
                              apply skipWs_nil_of_all
                              intro ch hch
                              rcases List.mem_append.mp hch with hm | hm
                              · exact all_of_skipWs_nil hst3 ch hm
                              · exact hw ch hm
                            rw [hnil5] at h
                            cases f with
                            | zero => exact Except.noConfusion h
                            | succ f2 => exact Except.noConfusion h
                          | cons d4 t4 =>
                            have hswa4 : skipWs (t3 ++ w) = d4 :: (t4 ++ w) :=
                              skipWs_append_cons hst3
                            rw [hswa4] at h
                            cases ho : parseObjLoop f (d4 :: (t4 ++ w)) with
                            | error err => rw [ho] at h; exact Except.noConfusion h
                            | ok pr3 =>
                              obtain ⟨kvs2, r6⟩ := pr3
                              rw [ho] at h
                              simp only at h
                              injection h with h1
                              injection h1 with hkv hr6
                              have ho2 : parseObjLoop f ((d4 :: t4) ++ w)
                                  = .ok (kvs2, r ++ w) := by
                                rw [List.cons_append, ho, hr6]
                              rw [ihO (d4 :: t4) kvs2 r ho2, ← hkv]
                        · rw [if_neg hcm] at h
                          exact Except.noConfusion h
              · rw [if_neg hcol] at h
                exact Except.noConfusion h
        · rw [if_neg hq] at h
          exact Except.noConfusion h

-- ============================================================
-- Fence round-trip: assembly
-- ============================================================

theorem dropWhile_append_all {p : Char → Bool} :
    ∀ t s : Str, (∀ c ∈ t, p c = true) → (t ++ s).dropWhile p = s.dropWhile p := by
  intro t
  induction t with
  | nil => intro s ht; rfl
  | cons a t2 ih =>
    intro s ht
    have ha : p a = true := ht a (List.mem_cons_self _ _)
    rw [List.cons_append, List.dropWhile_cons, if_pos ha]
    exact ih s (fun c hc => ht c (List.mem_cons_of_mem _ hc))

/-- A whitespace-framed valid JSON text strips (in the Python sense) exactly
to the consumed prefix of its parse. -/
theorem pyStrip_eq_consumed {j p r : Str} (hsplit : skipWs j = p ++ r)
    (hpne : p ≠ []) (hhead : tokenStart (p.headD ' ') = true)
    (hlast : isPyWs (p.getLastD ' ') = false)
    (hr : ∀ c ∈ r, isJsonWs c = true) :
    pyStrip j = p := by
  have h1 : j.dropWhile isPyWs = p ++ r := by
    conv_lhs => rw [skipWs_decompose j, hsplit]
    rw [dropWhile_append_all _ _
      (fun c hc => jsonWs_pyWs (takeWhile_all j c hc))]
    apply dropWhile_eq_self_of_head
    rw [headD_append_left r 'x' hpne]
    cases p with
    | nil => exact absurd rfl hpne
    | cons a p2 =>
      simp only [List.headD_cons] at hhead ⊢
      exact tokenStart_not_pyWs hhead
  have hh : isPyWs (p.reverse.headD 'x') = false := by
    rw [List.headD_eq_head?, List.head?_reverse, ← List.getLastD_eq_getLast?]
    rw [getLastD_irrel hpne 'x' ' ']
    exact hlast
  unfold pyStrip
  rw [h1, List.reverse_append]
  rw [dropWhile_append_all _ _
    (fun c hc => jsonWs_pyWs (hr c (List.mem_reverse.mp hc)))]
  rw [dropWhile_eq_self_of_head p.reverse hh, List.reverse_reverse]

/-- A text beginning with a token-start character is not fence-marked, so
cleanResponse leaves it unchanged. -/
theorem cleanResponse_of_head_token {t : Str}
    (h : tokenStart (t.headD ' ') = true) (hne : t ≠ []) :
    cleanResponse t = t := by
  cases t with
  | nil => exact absurd rfl hne
  | cons a t2 =>
    simp only [List.headD_cons] at h
    have hne2 : a ≠ '\x60' := tokenStart_ne h (by decide)
    have hbeq : ('\x60' == a) = false := by
      simp only [beq_eq_false_iff_ne]
      exact fun he => hne2 he.symm
    unfold cleanResponse
    rw [show fenceMarker = '\x60' :: ['\x60', '\x60'] from rfl]
    rw [if_neg (by rw [isPrefixOf_cons_false ['\x60', '\x60'] t2 hbeq]; exact
      Bool.false_ne_true)]

/-- Wrapping any payload in a json code fence and stripping recovers the
payload exactly: the fenced text strips to itself, is detected as fenced,
and dropping its first and last lines yields the payload. -/
theorem cleanResponse_fenced (j : Str) :
    cleanResponse (pyStrip
        ("\x60\x60\x60json\n".toList ++ j ++ "\n\x60\x60\x60".toList)) = j := by
  have hne1 : ("\x60\x60\x60json\n".toList : Str) ≠ [] := by decide
  have hne2 : ("\n\x60\x60\x60".toList : Str) ≠ [] := by decide
  have hne4 : ("\x60\x60\x60json\n".toList : Str) ++ j ≠ [] :=
    append_ne_nil_left j hne1
  have hstrip : pyStrip
        ("\x60\x60\x60json\n".toList ++ j ++ "\n\x60\x60\x60".toList)
      = "\x60\x60\x60json\n".toList ++ j ++ "\n\x60\x60\x60".toList := by
    apply pyStrip_eq_self
    · rw [headD_append_left _ 'x' hne4, headD_append_left _ 'x' hne1]
      decide
    · rw [getLastD_append_right _ 'x' hne2]
      decide
  have hassoc : ("\x60\x60\x60json\n".toList : Str) ++ j
        ++ "\n\x60\x60\x60".toList
      = fenceMarker
        ++ ("json\n".toList ++ (j ++ "\n\x60\x60\x60".toList)) := by
    rw [List.append_assoc]
    rfl
  have hpre : fenceMarker.isPrefixOf
      (("\x60\x60\x60json\n".toList : Str) ++ j
        ++ "\n\x60\x60\x60".toList) = true := by
    rw [hassoc]
    exact isPrefixOf_append_right (by decide)
  have hshape : ("\x60\x60\x60json\n".toList : Str) ++ j
        ++ "\n\x60\x60\x60".toList
      = "\x60\x60\x60json".toList
        ++ '\n' :: (j ++ '\n' :: "\x60\x60\x60".toList) := by
    rw [List.append_assoc]
    rfl
  rw [hstrip]
  unfold cleanResponse
  rw [if_pos hpre, hshape]
  rw [splitOnChar_append_sep '\n' "\x60\x60\x60json".toList
      (j ++ '\n' :: "\x60\x60\x60".toList),
    splitOnChar_append_sep '\n' j "\x60\x60\x60".toList,
    splitOnChar_of_not_mem '\n'
      (show ('\n' : Char) ∉ "\x60\x60\x60json".toList by decide),
    splitOnChar_of_not_mem '\n'
      (show ('\n' : Char) ∉ "\x60\x60\x60".toList by decide)]
  rw [List.singleton_append, List.drop_succ_cons, List.drop_zero]
  rw [List.dropLast_concat]
  exact joinWith_splitOnChar '\n' j

/-- A valid JSON text passes through the strip and fence-clean stages with
its parse unchanged: stripping keeps it valid with the same value, and the
stripped text is never mistaken for a fenced block. -/
theorem loads_strip_clean {j : Str} {v : Json} (h : loads j = .ok v) :
    cleanResponse (pyStrip j) = pyStrip j ∧ loads (pyStrip j) = .ok v := by
  unfold loads at h
  cases hpv : parseValue (2 * j.length + 2) (skipWs j) with
  | error e => rw [hpv] at h; exact absurd h (by simp)
  | ok pr =>
    obtain ⟨v0, r⟩ := pr
    rw [hpv] at h
    simp only at h
    by_cases hall : (r.all isJsonWs) = true
    · rw [if_pos hall] at h
      injection h with hv0
      subst hv0
      have hrws : ∀ c ∈ r, isJsonWs c = true := by
        intro c hc
        exact List.all_eq_true.mp hall c hc
      obtain ⟨p, hsplit, hpne, hptok, hplast, hfuel⟩ :=
        (parse_shape (2 * j.length + 2)).1 _ _ _ hpv
      have hstrip : pyStrip j = p :=
        pyStrip_eq_consumed hsplit hpne hptok hplast hrws
      have hp_trunc : parseValue (2 * j.length + 2) p = .ok (v0, []) := by
        apply (parse_truncate (2 * j.length + 2) r hrws).1 p v0 []
        rw [List.nil_append, ← hsplit]
        exact hpv
      obtain ⟨p2, hsplit2, hpne2, hptok2, hplast2, hfuel2⟩ :=
        (parse_shape (2 * j.length + 2)).1 _ _ _ hp_trunc
      have hp2 : p2 = p := by
        rw [List.append_nil] at hsplit2
        exact hsplit2.symm
      have hrun : parseValue (2 * p.length + 2) p = .ok (v0, []) := by
        apply hfuel2
        rw [hp2]
        omega
      have hskipp : skipWs p = p :=
        skipWs_eq_self_of_head rfl (tokenStart_not_jsonWs hptok) hpne
      refine ⟨?_, ?_⟩
      · rw [hstrip]
        exact cleanResponse_of_head_token hptok hpne
      · rw [hstrip]
        unfold loads
        rw [hskipp, hrun]
        rfl
    · rw [if_neg hall] at h
      exact absurd h (by simp)

/-- C4: fence-stripping round-trip — for every JSON text j that parses to a
value v, the analyze_with_gemini pipeline yields exactly v both when the AI
response wraps j in a json code fence (first and last lines are stripped
before parsing) and when the AI response is the bare text j (a response not
beginning with a fence is parsed unchanged). -/
theorem C4_fence_round_trip (resume jd j : Str) (v : Json)
    (h : loads j = .ok v) :
    analyze_with_gemini resume jd (fun _ => .ok
        ("\x60\x60\x60json\n".toList ++ j ++ "\n\x60\x60\x60".toList))
      = .ok v
    ∧ analyze_with_gemini resume jd (fun _ => .ok j) = .ok v := by
  constructor
  · simp only [analyze_with_gemini]
    rw [cleanResponse_fenced j, h]
  · simp only [analyze_with_gemini]
    obtain ⟨hc, hl⟩ := loads_strip_clean h
    rw [hc, hl]

theorem C4_witness :
    loads "\x7b\x7d".toList = .ok (.obj [])
    ∧ analyze_with_gemini [] [] (fun _ => .ok ("\x60\x60\x60json\n".toList
        ++ "\x7b\x7d".toList ++ "\n\x60\x60\x60".toList)) = .ok (.obj [])
    ∧ analyze_with_gemini [] [] (fun _ => .ok "\x7b\x7d".toList)
      = .ok (.obj []) := by
  have h := C4_fence_round_trip [] [] "\x7b\x7d".toList (.obj []) (by rfl)
  exact ⟨by rfl, h.1, h.2⟩

end ResumeAnalyzer
